import Mathlib

/-!
Message sharing between threads: pool, per-destination queues, send / recv

A shallow embedding of `message.hpp` / `message.cpp`.

* A `message_t*` is a `Ptr`: `none` is `nullptr`, `some a` the address `a`.
* The store of `message_t` objects obtained from `new` is `State.heap`; an address is live when
  the store holds a message there.
* `thread_queues` is the array of `MAX_SIZE` queues of handles, `created_message_counter` the
  `size_t` counter; `w` is the width of `size_t` in bits and the counter arithmetic is taken
  modulo `2 ^ w`.
* The calls are modelled as executed one after the other, so the `std::mutex` array does not appear.
* A thread identifier is a natural number; the `uint8_t` values are those below 256 and the
  functions make no use of that bound.
* The output argument of `recv` points to storage of the caller that is distinct from the
  messages of the store: it is passed as the contents of that slot (`none` for `nullptr`) and
  the contents after the call are returned.
-/

namespace MessageSharing

/-- The constant `MAX_SIZE` of `message.hpp`: the number of thread queues. -/
def MAX_SIZE : Nat := 254

/-- The constant `MAX_MSGS` of `message.hpp`: the cap on outstanding messages. -/
def MAX_MSGS : Nat := 2048

/-- The struct `message_t`: a `uint8_t` length and 255 `uint8_t` payload bytes. -/
structure message_t where
  len : Fin 256
  data : Fin 255 → Fin 256

/-- The result of `std::memset(m, 0, sizeof(message_t))`. -/
def message_t.zeroed : message_t := ⟨0, fun _ => 0⟩

/-- A `message_t*`: `none` is the null pointer. -/
abbrev Ptr := Option Nat

/-- The global variables of `message.cpp` together with the store of allocated messages. -/
structure State where
  heap : Nat → Option message_t
  thread_queues : Fin MAX_SIZE → List Ptr
  created_message_counter : Nat

/-- The state at program start: nothing allocated, all queues empty, counter zero-initialised. -/
def State.initial : State := ⟨fun _ => none, fun _ => [], 0⟩

/-- The function `new_message`. `alloc` is the outcome of `new message_t`: `some a` when the
allocator returns address `a`, `none` when it throws `std::bad_alloc` (caught, `nullptr`
returned, nothing changed). -/
def new_message (w : Nat) (alloc : Option Nat) (s : State) : Ptr × State :=
  if s.created_message_counter < MAX_MSGS then
    match alloc with
    | some a =>
      (some a,
        { s with
          heap := Function.update s.heap a (some message_t.zeroed)
          created_message_counter := (s.created_message_counter + 1) % 2 ^ w })
    | none => (none, s)
  else (none, s)

/-- The function `delete_message`: `delete msg`, then the unsigned decrement of the counter.
`delete nullptr` does nothing. Deleting an address that is not live is undefined in C++; the
store is left as it is in that case and the counter is decremented all the same, there being no
check in the source. -/
def delete_message (w : Nat) (msg : Ptr) (s : State) : State :=
  { s with
    heap :=
      match msg with
      | some a => Function.update s.heap a none
      | none => s.heap
    created_message_counter := (s.created_message_counter + 2 ^ w - 1) % 2 ^ w }

/-- The function `send`: returns the status code and the new state. `throws` is the outcome of
the guarded block: `true` when the push throws (the queue finds no storage for the new
element), in which case the catch-all handler returns `-1` and the queue is as it was. Locking
is taken not to fault. -/
def send (destination_id : Nat) (msg : Ptr) (throws : Bool) (s : State) : Int × State :=
  if h : msg.isNone = true ∨ MAX_SIZE ≤ destination_id then (-1, s)
  else if throws then (-1, s)
  else
    let d : Fin MAX_SIZE := ⟨destination_id, by omega⟩
    (0, { s with
          thread_queues := Function.update s.thread_queues d (s.thread_queues d ++ [msg]) })

/-- The function `recv`: returns the status code, the contents of the caller's output slot after
the call and the new state. The result is `none` when the call has undefined behaviour, which is
when the front handle is dereferenced without pointing to a live message. Locking is taken not
to fault, so the catch-all handler is not reached. -/
def recv (w : Nat) (receiver_id : Nat) (msg : Option message_t) (s : State) :
    Option (Int × Option message_t × State) :=
  if h : msg.isNone = true ∨ MAX_SIZE ≤ receiver_id then some (-1, msg, s)
  else
    let d : Fin MAX_SIZE := ⟨receiver_id, by omega⟩
    match s.thread_queues d with
    | [] => some (-1, msg, s)
    | front :: rest =>
      match front with
      | none => none
      | some a =>
        match s.heap a with
        | none => none
        | some m =>
          let s1 := delete_message w front s
          some (0, some m,
            { s1 with thread_queues := Function.update s1.thread_queues d rest })

/-- A call of one of the four functions of `message.hpp`, with its arguments, for
`new_message` the outcome of the allocator and for `send` whether its push throws. -/
inductive Call where
  | new_message (alloc : Option Nat)
  | delete_message (msg : Ptr)
  | send (destination_id : Nat) (msg : Ptr) (throws : Bool)
  | recv (receiver_id : Nat) (msg : Option message_t)

/-- What a call gives back to its caller. -/
inductive Ret where
  | handle (p : Ptr)
  | done
  | status (code : Int)
  | received (code : Int) (out : Option message_t)

/-- One call executed in a state; `none` when the call has undefined behaviour. -/
def step (w : Nat) (s : State) : Call → Option (Ret × State)
  | Call.new_message alloc => some (Ret.handle (new_message w alloc s).1, (new_message w alloc s).2)
  | Call.delete_message msg => some (Ret.done, delete_message w msg s)
  | Call.send d msg throws =>
    some (Ret.status (send d msg throws s).1, (send d msg throws s).2)
  | Call.recv d msg => (recv w d msg s).map fun r => (Ret.received r.1 r.2.1, r.2.2)

/-- A sequence of calls executed in order: the results of the calls and the final state; `none`
when one of the calls has undefined behaviour. -/
def run (w : Nat) : State → List Call → Option (List Ret × State)
  | s, [] => some ([], s)
  | s, c :: cs =>
    (step w s c).bind fun p => (run w p.2 cs).map fun q => (p.1 :: q.1, q.2)

/-- The message of `test_basic_send_receive`: length 3, payload `'A'`, `'B'`, `'C'`, rest zero. -/
def msgABC : message_t :=
  ⟨3, fun i => if i.val = 0 then 65 else if i.val = 1 then 66 else if i.val = 2 then 67 else 0⟩

/-- The state of `test_basic_send_receive` before its `send`: one message allocated at address
`0` and filled with `msgABC`, nothing queued. -/
def State.oneAllocated : State :=
  ⟨fun b => if b = 0 then some msgABC else none, fun _ => [], 1⟩

/-- The state of `test_basic_send_receive` after its `send`: the message at address `0` is
queued for destination `0`. -/
def State.oneQueued : State :=
  ⟨fun b => if b = 0 then some msgABC else none, fun e => if e.val = 0 then [some 0] else [], 1⟩

/-- Whether a call is a call of the pool: `new_message` or `delete_message`. -/
def Call.isPoolCall : Call → Bool
  | Call.new_message _ => true
  | Call.delete_message _ => true
  | _ => false

/-- The identifier a call of `send` or `recv` addresses (a call of the pool addresses none). -/
def Call.target : Call → Option Nat
  | Call.send d _ _ => some d
  | Call.recv d _ => some d
  | _ => none

/-- The address a call puts into a queue: that of a `send` with a non-null handle and a
destination below `MAX_SIZE` whose push does not throw. -/
def Call.enqueued : Call → Option Nat
  | Call.send d (some a) false => if d < MAX_SIZE then some a else none
  | _ => none

/-- The results of those calls of a sequence that address the identifier `d`, in order. -/
def resultsAt (d : Nat) : List Call → List Ret → List Ret
  | c :: cs, r :: rs =>
    if c.target = some d then r :: resultsAt d cs rs else resultsAt d cs rs
  | _, _ => []

/-- The ownership discipline of the message buffers, for a state and the addresses `pending`
that callers still hold and are going to send: every queued handle points to a live message,
no handle is queued twice (neither in one queue nor in two), and the pending addresses are
live, pairwise distinct and not queued. -/
structure Owned (s : State) (pending : List Nat) : Prop where
  queued_live : ∀ e p, p ∈ s.thread_queues e → ∃ a, p = some a ∧ s.heap a ≠ none
  queued_once : ∀ e, (s.thread_queues e).Nodup
  queued_apart : ∀ e1 e2, e1 ≠ e2 → ∀ p, p ∈ s.thread_queues e1 → p ∉ s.thread_queues e2
  pending_once : pending.Nodup
  pending_live : ∀ a, a ∈ pending → s.heap a ≠ none
  pending_free : ∀ a, a ∈ pending → ∀ e, some a ∉ s.thread_queues e

/-- The `i`-th message of `test_fifo_order`: length 1, first payload byte `'X' + i`. -/
def msgFifo (i : Nat) : message_t :=
  ⟨1, fun j => if j.val = 0 then Fin.ofNat (88 + i) else 0⟩

/-- The state of `test_fifo_order` with its three messages allocated at the addresses `0`, `1`,
`2` and filled, nothing queued yet. -/
def State.threeAllocated : State :=
  ⟨fun b => if b < 3 then some (msgFifo b) else none, fun _ => [], 3⟩

/-- The calls of `test_fifo_order` on destination `2`, with a `recv` on the empty queue of
receiver `1` (that of `test_recv_empty`) in between. -/
def fifoCalls : List Call :=
  [Call.send 2 (some 0) false, Call.send 2 (some 1) false, Call.recv 1 (some message_t.zeroed),
    Call.send 2 (some 2) false, Call.recv 2 (some message_t.zeroed),
    Call.recv 2 (some message_t.zeroed), Call.recv 2 (some message_t.zeroed)]

/-- The handle a `send` on `d` that returned `0` has put into the queue of `d`, read off the
call and its result. -/
def sentHandle (d : Nat) : Call × Ret → Option Ptr
  | (Call.send e p _, Ret.status code) => if e = d ∧ code = 0 then some p else none
  | _ => none

/-- The handles passed to the successful calls `send(d, _)` of a sequence, in order. -/
def sentTo (d : Nat) (tr : List Call) (rs : List Ret) : List Ptr :=
  (tr.zip rs).filterMap (sentHandle d)

/-- The contents a `recv` on `d` that returned `0` has written to its output slot, read off the
call and its result. -/
def receivedContents (d : Nat) : Call × Ret → Option (Option message_t)
  | (Call.recv e _, Ret.received code out) => if e = d ∧ code = 0 then some out else none
  | _ => none

/-- The contents returned by the successful calls `recv(d, _)` of a sequence, in order. -/
def receivedFrom (d : Nat) (tr : List Call) (rs : List Ret) : List (Option message_t) :=
  (tr.zip rs).filterMap (receivedContents d)

/-- The contents of the message a handle points to (`none` for a handle that is null or not
live). -/
def State.deref (s : State) (p : Ptr) : Option message_t :=
  p.bind s.heap

/-- The total number of handles queued, over all destinations. -/
def State.queued (s : State) : Nat :=
  Finset.univ.sum fun e : Fin MAX_SIZE => (s.thread_queues e).length

/-- The handles callers hold after a call, given those they held before and what the call
returned: a handle returned by `new_message` is held from then on, a handle given to
`delete_message` or to a `send` that returned `0` is held no longer. -/
def heldAfter (held : List Nat) : Call → Ret → List Nat
  | Call.new_message _, Ret.handle (some a) => a :: held
  | Call.delete_message (some a), _ => held.erase a
  | Call.send _ (some a) _, Ret.status code => if code = 0 then held.erase a else held
  | _, _ => held

/-- The allocator hands out storage that is not in use: when `new_message` allocates, the
address it gets holds no live message. -/
def Call.allocatesFresh (s : State) : Call → Prop
  | Call.new_message (some a) => s.created_message_counter < MAX_MSGS → s.heap a = none
  | _ => True

/-- A non-null handle passed to `send` is one the caller holds: returned by `new_message` and
neither sent nor released since. -/
def Call.sendsHeld (held : List Nat) : Call → Prop
  | Call.send _ (some a) _ => a ∈ held
  | _ => True

/-- A handle passed to `delete_message` is one the caller holds. -/
def Call.releasesHeld (held : List Nat) : Call → Prop
  | Call.delete_message msg => ∃ a, msg = some a ∧ a ∈ held
  | _ => True

/-- A condition `P` on the state, the handles held and the call holds at every call of a
sequence executed from state `s` with the handles `held`. -/
def alongRun (w : Nat) (P : State → List Nat → Call → Prop) :
    State → List Nat → List Call → Prop
  | _, _, [] => True
  | s, held, c :: cs =>
    P s held c ∧ ∀ r s1, step w s c = some (r, s1) → alongRun w P s1 (heldAfter held c r) cs

/-- Whether a result is that of a `new_message` that returned a non-null handle. -/
def Ret.isAllocation : Ret → Bool
  | Ret.handle (some _) => true
  | _ => false

/-- Whether a result is that of a `recv` that returned `0`. -/
def Ret.isReception : Ret → Bool
  | Ret.received code _ => decide (code = 0)
  | _ => false

/-- Whether a call is a call of `delete_message`. -/
def Call.isRelease : Call → Bool
  | Call.delete_message _ => true
  | _ => false

/-- The calls `m = new_message(); send(d, m)` made for each address of `addrs` in turn, the
allocator returning that address. -/
def allocSends (d : Nat) (addrs : List Nat) : List Call :=
  addrs.flatMap fun a => [Call.new_message (some a), Call.send d (some a) false]

/-- The trace `new_message(); send(0, m); delete_message(nullptr)`, the allocator returning
address `0`. -/
def releaseNullCalls : List Call :=
  [Call.new_message (some 0), Call.send 0 (some 0) false, Call.delete_message none]

/-- The trace of two allocations sent to destination `0` and two receives from it. -/
def twoRoundCalls : List Call :=
  [Call.new_message (some 0), Call.send 0 (some 0) false, Call.new_message (some 1),
    Call.send 0 (some 1) false, Call.recv 0 (some message_t.zeroed), Call.recv 0 (some message_t.zeroed)]

/-! ## Basic facts about the four functions -/

theorem send_null (d : Nat) (throws : Bool) (s : State) : send d none throws s = (-1, s) := by
  simp [send]

theorem send_out_of_range (d : Nat) (msg : Ptr) (throws : Bool) (s : State)
    (hd : MAX_SIZE ≤ d) : send d msg throws s = (-1, s) := by
  simp [send, hd]

theorem send_throws (d : Nat) (msg : Ptr) (s : State) : send d msg true s = (-1, s) := by
  unfold send
  split
  · rfl
  · rfl

theorem send_valid (d : Fin MAX_SIZE) (a : Nat) (s : State) :
    send d.val (some a) false s =
      (0, { s with
            thread_queues :=
              Function.update s.thread_queues d (s.thread_queues d ++ [some a]) }) := by
  have hd : ¬ MAX_SIZE ≤ d.val := Nat.not_le.mpr d.isLt
  simp [send, hd]

theorem recv_null (w d : Nat) (s : State) : recv w d none s = some (-1, none, s) := by
  simp [recv]

theorem recv_out_of_range (w d : Nat) (out : Option message_t) (s : State)
    (hd : MAX_SIZE ≤ d) : recv w d out s = some (-1, out, s) := by
  simp [recv, hd]

theorem recv_valid_empty (w : Nat) (d : Fin MAX_SIZE) (out : Option message_t) (s : State)
    (hq : s.thread_queues d = []) : recv w d.val out s = some (-1, out, s) := by
  unfold recv
  split
  · rfl
  · simp only [Fin.eta, hq]

theorem recv_valid_front (w : Nat) (d : Fin MAX_SIZE) (o : message_t) (s : State)
    (a : Nat) (rest : List Ptr) (m : message_t)
    (hq : s.thread_queues d = some a :: rest) (ha : s.heap a = some m) :
    recv w d.val (some o) s =
      some (0, some m,
        { heap := Function.update s.heap a none
          thread_queues := Function.update s.thread_queues d rest
          created_message_counter := (s.created_message_counter + 2 ^ w - 1) % 2 ^ w }) := by
  have hd : ¬ MAX_SIZE ≤ d.val := Nat.not_le.mpr d.isLt
  unfold recv
  split
  · rename_i h
    simp [hd] at h
  · simp only [Fin.eta, hq, ha, delete_message]

theorem size_t_decrement (w c : Nat) : ((c + 2 ^ w - 1) % 2 ^ w + 1) % 2 ^ w = c % 2 ^ w := by
  have hp : 0 < 2 ^ w := Nat.pow_pos (by decide)
  have h : c + 2 ^ w - 1 + 1 = c + 2 ^ w := by omega
  rw [Nat.add_mod, Nat.mod_mod, ← Nat.add_mod, h, Nat.add_mod_right]

theorem size_t_decrement_pos (w c : Nat) (h0 : 0 < c) (hc : c < 2 ^ w) :
    (c + 2 ^ w - 1) % 2 ^ w = c - 1 := by
  have h : c + 2 ^ w - 1 = (c - 1) + 2 ^ w := by omega
  rw [h, Nat.add_mod_right, Nat.mod_eq_of_lt (by omega)]

/-! ## The pool: `new_message` -/

theorem new_message_full (w : Nat) (alloc : Option Nat) (s : State)
    (hfull : s.created_message_counter = MAX_MSGS) : new_message w alloc s = (none, s) := by
  simp [new_message, hfull]

theorem new_message_room (w : Nat) (hw : MAX_MSGS < 2 ^ w) (s : State) (a : Nat)
    (hlt : s.created_message_counter < MAX_MSGS) :
    (new_message w (some a) s).1 = some a ∧
    (new_message w (some a) s).2.heap a = some message_t.zeroed ∧
    (new_message w (some a) s).2.created_message_counter = s.created_message_counter + 1 ∧
    (new_message w (some a) s).2.thread_queues = s.thread_queues ∧
    (∀ b, b ≠ a → (new_message w (some a) s).2.heap b = s.heap b) := by
  have hmod : (s.created_message_counter + 1) % 2 ^ w = s.created_message_counter + 1 :=
    Nat.mod_eq_of_lt (by omega)
  simp only [new_message, hlt, if_true, Function.update_same, hmod]
  exact ⟨trivial, trivial, trivial, trivial, fun b hb => Function.update_noteq hb _ _⟩

/-- C5: on a platform whose `size_t` holds `MAX_MSGS`, `new_message` returns `nullptr` and
changes nothing when the counter equals `MAX_MSGS`, whatever the allocator would do; when the
counter is below `MAX_MSGS` and the allocator succeeds with address `a`, it returns `a`, the
message at `a` has `len = 0` and all 255 data bytes `0`, the counter has grown by exactly one,
every queue is as before and no other message of the store has changed. -/
theorem new_message_postcondition (w : Nat) (hw : MAX_MSGS < 2 ^ w) (s : State) :
    (s.created_message_counter = MAX_MSGS → ∀ alloc, new_message w alloc s = (none, s)) ∧
    (s.created_message_counter < MAX_MSGS → ∀ a, ∃ m,
      (new_message w (some a) s).1 = some a ∧
      (new_message w (some a) s).2.heap a = some m ∧ m.len = 0 ∧ (∀ i, m.data i = 0) ∧
      (new_message w (some a) s).2.created_message_counter = s.created_message_counter + 1 ∧
      (new_message w (some a) s).2.thread_queues = s.thread_queues ∧
      (∀ b, b ≠ a → (new_message w (some a) s).2.heap b = s.heap b)) := by
  refine ⟨fun hfull alloc => new_message_full w alloc s hfull, fun hlt a => ?_⟩
  obtain ⟨h1, h2, h3, h4, h5⟩ := new_message_room w hw s a hlt
  exact ⟨message_t.zeroed, h1, h2, rfl, fun _ => rfl, h3, h4, h5⟩

theorem new_message_postcondition_witness :
    MAX_MSGS < 2 ^ 64 ∧
    (State.initial.created_message_counter < MAX_MSGS → ∀ a, ∃ m,
      (new_message 64 (some a) State.initial).1 = some a ∧
      (new_message 64 (some a) State.initial).2.heap a = some m ∧ m.len = 0 ∧
      (∀ i, m.data i = 0) ∧
      (new_message 64 (some a) State.initial).2.created_message_counter =
        State.initial.created_message_counter + 1 ∧
      (new_message 64 (some a) State.initial).2.thread_queues = State.initial.thread_queues ∧
      (∀ b, b ≠ a → (new_message 64 (some a) State.initial).2.heap b = State.initial.heap b)) :=
  ⟨by decide, (new_message_postcondition 64 (by decide) State.initial).2⟩

/-! ## Failure paths of `send` and `recv` -/

/-- C6: for every state and every valid receiver whose queue is empty, `recv` returns `-1`
(a non-zero code), the caller's output slot holds what it held before, and the state (the
counter, every queue, the store) is the state before the call. -/
theorem recv_empty_queue_fails (w : Nat) (id : Fin MAX_SIZE) (out : Option message_t)
    (s : State) (hq : s.thread_queues id = []) :
    recv w id.val out s = some (-1, out, s) ∧ (-1 : Int) ≠ 0 :=
  ⟨recv_valid_empty w id out s hq, by decide⟩

theorem recv_empty_queue_fails_witness :
    State.initial.thread_queues ⟨1, by decide⟩ = [] ∧
    recv 64 1 (some msgABC) State.initial = some (-1, some msgABC, State.initial) :=
  ⟨rfl, (recv_empty_queue_fails 64 ⟨1, by decide⟩ (some msgABC) State.initial rfl).1⟩

/-- C7: for every state, every identifier `id` with `MAX_SIZE ≤ id` and every message
argument, `send` (whether or not its push would throw) and `recv` return `-1` and give back the
state and the output slot as they were; and an identifier is accepted exactly when it is below
`MAX_SIZE`: a `send` of a non-null handle that returns `0` has `id < MAX_SIZE`, one whose push
does not throw returns `0` iff `id < MAX_SIZE`, and some call of `recv` with this identifier
returns `0` iff `id < MAX_SIZE`. -/
theorem invalid_identifier_rejected (w id : Nat) (msg : Ptr) (out : Option message_t)
    (throws : Bool) (s : State) :
    (MAX_SIZE ≤ id →
      send id msg throws s = (-1, s) ∧ recv w id out s = some (-1, out, s) ∧
        (-1 : Int) ≠ 0) ∧
    (∀ a, (send id (some a) throws s).1 = 0 → id < MAX_SIZE) ∧
    (∀ a, (send id (some a) false s).1 = 0 ↔ id < MAX_SIZE) ∧
    ((∃ t o r, recv w id o t = some r ∧ r.1 = 0) ↔ id < MAX_SIZE) := by
  have hsend : ∀ (thr : Bool) (a : Nat), (send id (some a) thr s).1 = 0 → id < MAX_SIZE := by
    intro thr a h
    by_contra hge
    rw [send_out_of_range id (some a) thr s (Nat.le_of_not_lt hge)] at h
    simp at h
  refine ⟨fun hid => ⟨send_out_of_range id msg throws s hid,
    recv_out_of_range w id out s hid, by decide⟩, hsend throws,
    fun a => ⟨hsend false a, fun h => ?_⟩, ⟨?_, fun h => ?_⟩⟩
  · rw [show id = (⟨id, h⟩ : Fin MAX_SIZE).val from rfl, send_valid]
  · rintro ⟨t, o, r, hr, h0⟩
    by_contra hge
    rw [recv_out_of_range w id o t (Nat.le_of_not_lt hge)] at hr
    cases hr
    simp at h0
  · refine ⟨⟨fun b => if b = 0 then some msgABC else none,
      fun e => if e = ⟨id, h⟩ then [some 0] else [], 1⟩, some msgABC, _,
      recv_valid_front w ⟨id, h⟩ msgABC _ 0 [] msgABC ?_ ?_, rfl⟩
    · simp
    · simp

theorem invalid_identifier_rejected_witness :
    MAX_SIZE ≤ 255 ∧
    send 255 (some 0) false State.oneAllocated = (-1, State.oneAllocated) ∧
    recv 64 255 (some msgABC) State.oneAllocated = some (-1, some msgABC, State.oneAllocated) :=
  have h := (invalid_identifier_rejected 64 255 (some 0) (some msgABC) false
    State.oneAllocated).1 (by decide)
  ⟨by decide, h.1, h.2.1⟩

/-- C10: for every state and every identifier, `send` with a null handle (whether or not its
push would throw) and `recv` with a null output slot return `-1` and the state after the call
is the state before it (every queue, the counter, the store); this holds in particular when
the receiver's queue is not empty, so the front message is neither dequeued nor released. -/
theorem null_reference_no_effect (w id : Nat) (throws : Bool) (s : State) :
    send id none throws s = (-1, s) ∧ recv w id none s = some (-1, none, s) ∧
      (-1 : Int) ≠ 0 :=
  ⟨send_null id throws s, recv_null w id s, by decide⟩

/-! ## Success paths of `send` and `recv` -/

/-- C8, the claim as stated fails: with a non-null handle and the valid destination `0`,
a `send` whose push throws is caught by the catch-all handler and returns `-1`, the state
being as before; so a non-null handle and `d < 254` do not suffice for `send` to return `0`. -/
theorem send_success_counterexample :
    (some 0 : Ptr) ≠ none ∧ 0 < MAX_SIZE ∧
    send 0 (some 0) true State.oneAllocated = (-1, State.oneAllocated) ∧
    ¬ ((send 0 (some 0) true State.oneAllocated).1 = 0 ↔ (some 0 : Ptr) ≠ none ∧ 0 < MAX_SIZE) := by
  refine ⟨by simp, by decide, send_throws 0 _ _, ?_⟩
  rw [send_throws]
  intro h
  have h0 := h.mpr ⟨by simp, by decide⟩
  simp at h0

/-- C8, amended: `send` returns `0` if and only if the handle is non-null, the destination is
below `MAX_SIZE` and the push does not throw, and returns `-1` otherwise, the state then being
as before; on success the queue of the destination is its former contents with the handle
appended at the tail, every other queue is unchanged, and so are the counter and the store. -/
theorem send_success_and_frame (d : Nat) (msg : Ptr) (throws : Bool) (s : State) :
    ((send d msg throws s).1 = 0 ↔ msg ≠ none ∧ d < MAX_SIZE ∧ throws = false) ∧
    ((send d msg throws s).1 ≠ 0 →
      (send d msg throws s).1 = -1 ∧ (send d msg throws s).2 = s) ∧
    (∀ h : d < MAX_SIZE, msg ≠ none → throws = false →
      (send d msg throws s).2.thread_queues ⟨d, h⟩ = s.thread_queues ⟨d, h⟩ ++ [msg] ∧
      (∀ e, e ≠ ⟨d, h⟩ → (send d msg throws s).2.thread_queues e = s.thread_queues e) ∧
      (send d msg throws s).2.created_message_counter = s.created_message_counter ∧
      (send d msg throws s).2.heap = s.heap) := by
  cases msg with
  | none =>
    rw [send_null]
    simp
  | some a =>
    cases throws with
    | true =>
      rw [send_throws]
      simp
    | false =>
      by_cases hd : d < MAX_SIZE
      · rw [show d = (⟨d, hd⟩ : Fin MAX_SIZE).val from rfl, send_valid]
        refine ⟨by simp [hd], by simp, fun _ _ _ => ⟨by simp, fun e he => ?_, rfl, rfl⟩⟩
        exact Function.update_noteq he _ _
      · rw [send_out_of_range d (some a) false s (Nat.le_of_not_lt hd)]
        refine ⟨by simp [hd], by simp, fun h => absurd h hd⟩

theorem send_success_and_frame_witness :
    (send 0 (some 0) false State.oneAllocated).1 = 0 ∧
    (send 0 (some 0) false State.oneAllocated).2.thread_queues ⟨0, by decide⟩ = [some 0] :=
  have h := send_success_and_frame 0 (some 0) false State.oneAllocated
  ⟨h.1.mpr ⟨by simp, by decide, rfl⟩, (h.2.2 (by decide) (by simp) rfl).1⟩

/-- C9: when the front handle of the receiver's queue (if there is one) points to a live
message, `recv` returns `0` if and only if the output slot is non-null, the identifier is below
`MAX_SIZE` and the queue is non-empty, and returns `-1` otherwise; on success the output slot
holds the contents of the former front message, the queue has lost exactly its head and keeps
the rest in order, every other queue is unchanged, the front message is released and the
counter has been decremented by one as a `size_t` (the new value plus one is the old value
modulo `2 ^ w`, and is the old value itself when that was positive). -/
theorem recv_success_effect (w id : Nat) (out : Option message_t) (s : State)
    (hfront : ∀ (h : id < MAX_SIZE) (p : Ptr) (rest : List Ptr),
      s.thread_queues ⟨id, h⟩ = p :: rest → ∃ a m, p = some a ∧ s.heap a = some m) :
    ∃ r, recv w id out s = some r ∧
      (r.1 = 0 ↔ out ≠ none ∧ ∃ h : id < MAX_SIZE, s.thread_queues ⟨id, h⟩ ≠ []) ∧
      (r.1 ≠ 0 → r.1 = -1) ∧
      (r.1 = 0 → ∃ (h : id < MAX_SIZE) (a : Nat) (m : message_t) (rest : List Ptr),
        s.thread_queues ⟨id, h⟩ = some a :: rest ∧ s.heap a = some m ∧
        r.2.1 = some m ∧
        r.2.2.thread_queues ⟨id, h⟩ = rest ∧
        (∀ e, e ≠ ⟨id, h⟩ → r.2.2.thread_queues e = s.thread_queues e) ∧
        r.2.2.created_message_counter = (s.created_message_counter + 2 ^ w - 1) % 2 ^ w ∧
        (r.2.2.created_message_counter + 1) % 2 ^ w = s.created_message_counter % 2 ^ w ∧
        (0 < s.created_message_counter → s.created_message_counter < 2 ^ w →
          r.2.2.created_message_counter + 1 = s.created_message_counter) ∧
        r.2.2.heap a = none ∧ ∀ b, b ≠ a → r.2.2.heap b = s.heap b) := by
  cases out with
  | none => exact ⟨_, recv_null w id s, by simp, by simp, by simp⟩
  | some o =>
    by_cases hd : id < MAX_SIZE
    · cases hq : s.thread_queues ⟨id, hd⟩ with
      | nil =>
        refine ⟨_, recv_valid_empty w ⟨id, hd⟩ (some o) s hq, ?_, by simp, by simp⟩
        simp [hq]
      | cons p rest =>
        obtain ⟨a, m, rfl, ha⟩ := hfront hd p rest hq
        refine ⟨_, recv_valid_front w ⟨id, hd⟩ o s a rest m hq ha, ?_, by simp, fun _ =>
          ⟨hd, a, m, rest, hq, ha, rfl, by simp, fun e he => ?_, rfl,
            size_t_decrement w _, fun h0 hc => ?_, by simp, fun b hb => ?_⟩⟩
        · simp [hq, hd]
        · exact Function.update_noteq he _ _
        · show (s.created_message_counter + 2 ^ w - 1) % 2 ^ w + 1 = s.created_message_counter
          rw [size_t_decrement_pos w _ h0 hc]
          omega
        · exact Function.update_noteq hb _ _
    · refine ⟨_, recv_out_of_range w id (some o) s (Nat.le_of_not_lt hd), ?_, by simp, by simp⟩
      simp [hd]

theorem recv_success_effect_witness :
    (∀ (h : 0 < MAX_SIZE) (p : Ptr) (rest : List Ptr),
      State.oneQueued.thread_queues ⟨0, h⟩ = p :: rest →
        ∃ a m, p = some a ∧ State.oneQueued.heap a = some m) ∧
    ∃ r, recv 64 0 (some message_t.zeroed) State.oneQueued = some r ∧
      (r.1 = 0 ↔ some message_t.zeroed ≠ none ∧
        ∃ h : 0 < MAX_SIZE, State.oneQueued.thread_queues ⟨0, h⟩ ≠ []) :=
  have hfront : ∀ (h : 0 < MAX_SIZE) (p : Ptr) (rest : List Ptr),
      State.oneQueued.thread_queues ⟨0, h⟩ = p :: rest →
        ∃ a m, p = some a ∧ State.oneQueued.heap a = some m := by
    intro h p rest hq
    refine ⟨0, msgABC, ?_, rfl⟩
    have h2 : [some 0] = p :: rest := hq
    injection h2 with h3 _
    exact h3.symm
  ⟨hfront,
    (recv_success_effect 64 0 (some message_t.zeroed) State.oneQueued hfront).imp
      fun _ hr => ⟨hr.1, hr.2.1⟩⟩

/-- C2, the claim as stated fails: in the state of the test before its `send` (queue `0`
empty, the handle pointing to the message `'A'`, `'B'`, `'C'` of length 3), a `send` to
destination `0` whose push throws returns `-1` and queues nothing, and the `recv` that follows
finds the queue empty, returns `-1` and leaves the output slot as it was. -/
theorem round_trip_counterexample :
    State.oneAllocated.thread_queues ⟨0, by decide⟩ = [] ∧
    State.oneAllocated.heap 0 = some msgABC ∧
    (send 0 (some 0) true State.oneAllocated).1 = -1 ∧
    recv 64 0 (some message_t.zeroed) (send 0 (some 0) true State.oneAllocated).2 =
      some (-1, some message_t.zeroed, State.oneAllocated) := by
  rw [send_throws]
  exact ⟨rfl, rfl, rfl, recv_valid_empty 64 ⟨0, by decide⟩ _ State.oneAllocated rfl⟩

/-- C2, amended: for every message contents `m` held by a live handle, every valid destination
whose queue is empty and every non-null output slot, a `send` whose push does not throw
returns `0` and the `recv` that follows returns `0` and leaves in the output slot exactly `m`
(its length and all its data bytes). -/
theorem send_recv_round_trip (w : Nat) (d : Fin MAX_SIZE) (a : Nat) (m o : message_t)
    (s : State) (hq : s.thread_queues d = []) (ha : s.heap a = some m) :
    (send d.val (some a) false s).1 = 0 ∧
    ∃ t, recv w d.val (some o) (send d.val (some a) false s).2 = some (0, some m, t) := by
  rw [send_valid]
  refine ⟨rfl, _, recv_valid_front w d o _ a [] m ?_ ha⟩
  simp [hq]

theorem send_recv_round_trip_witness :
    State.oneAllocated.thread_queues ⟨0, by decide⟩ = [] ∧
    State.oneAllocated.heap 0 = some msgABC ∧ msgABC.len = 3 ∧
    (send 0 (some 0) false State.oneAllocated).1 = 0 ∧
    ∃ t, recv 64 0 (some message_t.zeroed) (send 0 (some 0) false State.oneAllocated).2 =
      some (0, some msgABC, t) :=
  ⟨rfl, rfl, rfl,
    send_recv_round_trip 64 ⟨0, by decide⟩ 0 msgABC message_t.zeroed State.oneAllocated rfl rfl⟩

/-! ## Sequences of calls -/

theorem run_nil (w : Nat) (s : State) : run w s [] = some ([], s) := rfl

theorem run_cons (w : Nat) (c : Call) (cs : List Call) (s : State) :
    run w s (c :: cs) =
      (step w s c).bind fun p => (run w p.2 cs).map fun q => (p.1 :: q.1, q.2) := rfl

theorem run_append (w : Nat) (xs ys : List Call) (s : State) :
    run w s (xs ++ ys) =
      (run w s xs).bind fun p => (run w p.2 ys).map fun q => (p.1 ++ q.1, q.2) := by
  induction xs generalizing s with
  | nil =>
    rw [List.nil_append, run_nil, Option.some_bind]
    cases run w s ys <;> simp
  | cons c cs ih =>
    rw [List.cons_append, run_cons, run_cons]
    cases step w s c with
    | none => rfl
    | some p =>
      simp only [Option.some_bind, ih]
      cases run w p.2 cs with
      | none => rfl
      | some q =>
        simp only [Option.some_bind, Option.map_some']
        cases run w q.2 ys <;> simp

theorem run_snoc (w : Nat) (xs : List Call) (c : Call) (s s1 : State) (rs : List Ret)
    (hxs : run w s xs = some (rs, s1)) :
    run w s (xs ++ [c]) = (step w s1 c).map fun p => (rs ++ [p.1], p.2) := by
  rw [run_append, hxs, Option.some_bind, run_cons]
  cases step w s1 c <;> simp [run_nil]

theorem new_message_counter_le (w : Nat) (hw : MAX_MSGS < 2 ^ w) (alloc : Option Nat)
    (s : State) (hs : s.created_message_counter ≤ MAX_MSGS) :
    (new_message w alloc s).2.created_message_counter ≤ MAX_MSGS := by
  unfold new_message
  split
  · cases alloc with
    | none => exact hs
    | some a =>
      show (s.created_message_counter + 1) % 2 ^ w ≤ MAX_MSGS
      rw [Nat.mod_eq_of_lt (by omega)]
      omega
  · exact hs

theorem delete_message_counter_le (w : Nat) (hw : MAX_MSGS < 2 ^ w) (msg : Ptr) (s : State)
    (hs : s.created_message_counter ≤ MAX_MSGS) (h0 : 0 < s.created_message_counter) :
    (delete_message w msg s).created_message_counter ≤ MAX_MSGS := by
  show (s.created_message_counter + 2 ^ w - 1) % 2 ^ w ≤ MAX_MSGS
  rw [size_t_decrement_pos w _ h0 (by omega)]
  omega

/-- C3, the claim as stated fails: from the initial state the single call
`delete_message(nullptr)` is a sequence of pool calls after which the counter is
`2 ^ 64 - 1` on a platform with a 64-bit `size_t`, above `MAX_MSGS`. -/
theorem capacity_invariant_counterexample :
    (∀ c ∈ [Call.delete_message none], c.isPoolCall = true) ∧
    ∃ rs s, run 64 State.initial [Call.delete_message none] = some (rs, s) ∧
      s.created_message_counter = 2 ^ 64 - 1 ∧ ¬ s.created_message_counter ≤ MAX_MSGS := by
  refine ⟨by simp [Call.isPoolCall], [Ret.done], delete_message 64 none State.initial, rfl, ?_, ?_⟩
  · decide
  · decide

/-- C3, amended: on a platform whose `size_t` holds `MAX_MSGS`, starting from the initial
state, for every sequence of `new_message` / `delete_message` calls in which `delete_message`
is never called while the counter is `0`, every call returns and the counter is at most
`MAX_MSGS` after every call (after every prefix of the sequence). -/
theorem capacity_invariant_guarded (w : Nat) (hw : MAX_MSGS < 2 ^ w) (tr : List Call)
    (hpool : ∀ c ∈ tr, c.isPoolCall = true)
    (hguard : ∀ pre p rs s, pre ++ [Call.delete_message p] <+: tr →
      run w State.initial pre = some (rs, s) → 0 < s.created_message_counter) :
    ∀ pre, pre <+: tr →
      ∃ rs s, run w State.initial pre = some (rs, s) ∧ s.created_message_counter ≤ MAX_MSGS := by
  intro pre
  induction pre using List.reverseRecOn with
  | nil => exact fun _ => ⟨[], State.initial, rfl, Nat.zero_le _⟩
  | append_singleton pre c ih =>
    intro hpre
    obtain ⟨rs, s, hrun, hle⟩ := ih ((List.prefix_append pre [c]).trans hpre)
    have hmem : c ∈ tr := hpre.subset (by simp)
    have hc := hpool c hmem
    rw [run_snoc w pre c State.initial s rs hrun]
    cases c with
    | new_message alloc =>
      exact ⟨_, _, rfl, new_message_counter_le w hw alloc s hle⟩
    | delete_message msg =>
      exact ⟨_, _, rfl, delete_message_counter_le w hw msg s hle (hguard pre msg rs s hpre hrun)⟩
    | send d msg => simp [Call.isPoolCall] at hc
    | recv d msg => simp [Call.isPoolCall] at hc

theorem capacity_invariant_guarded_witness :
    MAX_MSGS < 2 ^ 64 ∧
    (∀ c ∈ [Call.new_message (some 0), Call.delete_message (some 0)], c.isPoolCall = true) ∧
    (∀ pre p rs s,
      pre ++ [Call.delete_message p] <+: [Call.new_message (some 0), Call.delete_message (some 0)] →
      run 64 State.initial pre = some (rs, s) → 0 < s.created_message_counter) ∧
    ∃ rs s, run 64 State.initial [Call.new_message (some 0), Call.delete_message (some 0)] =
      some (rs, s) ∧ s.created_message_counter ≤ MAX_MSGS :=
  have hpool : ∀ c ∈ [Call.new_message (some 0), Call.delete_message (some 0)],
      c.isPoolCall = true := by
    simp [Call.isPoolCall]
  have hguard : ∀ pre p rs s,
      pre ++ [Call.delete_message p] <+:
        [Call.new_message (some 0), Call.delete_message (some 0)] →
      run 64 State.initial pre = some (rs, s) → 0 < s.created_message_counter := by
    intro pre p rs s hpre hrun
    obtain ⟨t, ht⟩ := hpre
    rcases pre with _ | ⟨x, _ | ⟨y, pre⟩⟩
    · simp at ht
    · simp only [List.cons_append, List.nil_append, List.cons.injEq] at ht
      obtain ⟨rfl, -, -⟩ := ht
      have hs : s = (new_message 64 (some 0) State.initial).2 := by
        simp only [run_cons, run_nil, step, Option.some_bind, Option.map_some',
          Option.some.injEq, Prod.mk.injEq] at hrun
        exact hrun.2.symm
      rw [hs]
      decide
    · simp at ht
  ⟨by decide, hpool, hguard,
    capacity_invariant_guarded 64 (by decide) _ hpool hguard _ (List.prefix_refl _)⟩

theorem owned_send (s : State) (d : Fin MAX_SIZE) (a : Nat) (pend : List Nat)
    (ho : Owned s (a :: pend)) :
    Owned { s with
            thread_queues :=
              Function.update s.thread_queues d (s.thread_queues d ++ [some a]) } pend := by
  have hnd := List.nodup_cons.mp ho.pending_once
  refine ⟨fun e p hp => ?_, fun e => ?_, fun e1 e2 hne p hp => ?_, hnd.2,
    fun b hb => ho.pending_live b (List.mem_cons_of_mem a hb), fun b hb e => ?_⟩
  · by_cases he : e = d
    · subst he
      simp only [Function.update_same, List.mem_append, List.mem_singleton] at hp
      rcases hp with hp | rfl
      · exact ho.queued_live e p hp
      · exact ⟨a, rfl, ho.pending_live a (List.mem_cons_self a pend)⟩
    · simp only [Function.update_noteq he] at hp
      exact ho.queued_live e p hp
  · by_cases he : e = d
    · subst he
      simp only [Function.update_same]
      refine List.Nodup.append (ho.queued_once e) (List.nodup_singleton _) ?_
      intro x hx hx2
      rw [List.mem_singleton] at hx2
      subst hx2
      exact ho.pending_free a (List.mem_cons_self a pend) e hx
    · simp only [Function.update_noteq he]
      exact ho.queued_once e
  · by_cases h1 : e1 = d
    · subst h1
      have h2 : e2 ≠ e1 := fun h => hne h.symm
      simp only [Function.update_same, List.mem_append, List.mem_singleton] at hp
      simp only [Function.update_noteq h2]
      rcases hp with hp | rfl
      · exact ho.queued_apart e1 e2 hne p hp
      · exact ho.pending_free a (List.mem_cons_self a pend) e2
    · simp only [Function.update_noteq h1] at hp
      by_cases h2 : e2 = d
      · subst h2
        simp only [Function.update_same, List.mem_append, List.mem_singleton, not_or]
        refine ⟨ho.queued_apart e1 e2 hne p hp, ?_⟩
        rintro rfl
        exact ho.pending_free a (List.mem_cons_self a pend) e1 hp
      · simp only [Function.update_noteq h2]
        exact ho.queued_apart e1 e2 hne p hp
  · have hfree := ho.pending_free b (List.mem_cons_of_mem a hb)
    by_cases he : e = d
    · subst he
      simp only [Function.update_same, List.mem_append, List.mem_singleton, not_or]
      refine ⟨hfree e, ?_⟩
      intro hba
      injection hba with hba
      subst hba
      exact hnd.1 hb
    · simp only [Function.update_noteq he]
      exact hfree e

theorem owned_recv (s : State) (e : Fin MAX_SIZE) (a : Nat) (rest : List Ptr) (c : Nat)
    (pend : List Nat) (ho : Owned s pend) (hq : s.thread_queues e = some a :: rest) :
    Owned { heap := Function.update s.heap a none
            thread_queues := Function.update s.thread_queues e rest
            created_message_counter := c } pend := by
  have hnd : (some a :: rest).Nodup := hq ▸ ho.queued_once e
  have hmem : some a ∈ s.thread_queues e := by rw [hq]; exact List.mem_cons_self _ _
  have hsub : ∀ p, p ∈ rest → p ∈ s.thread_queues e := fun p hp => by
    rw [hq]; exact List.mem_cons_of_mem _ hp
  refine ⟨fun e1 p hp => ?_, fun e1 => ?_, fun e1 e2 hne p hp => ?_, ho.pending_once,
    fun b hb => ?_, fun b hb e1 => ?_⟩
  · by_cases he : e1 = e
    · subst he
      simp only [Function.update_same] at hp
      obtain ⟨b, rfl, hb⟩ := ho.queued_live e1 p (hsub p hp)
      have hba : b ≠ a := by
        rintro rfl
        exact (List.nodup_cons.mp hnd).1 hp
      exact ⟨b, rfl, by simpa only [Function.update_noteq hba] using hb⟩
    · simp only [Function.update_noteq he] at hp
      obtain ⟨b, rfl, hb⟩ := ho.queued_live e1 p hp
      have hba : b ≠ a := by
        rintro rfl
        exact ho.queued_apart e1 e he (some b) hp hmem
      exact ⟨b, rfl, by simpa only [Function.update_noteq hba] using hb⟩
  · by_cases he : e1 = e
    · subst he
      simp only [Function.update_same]
      exact (List.nodup_cons.mp hnd).2
    · simp only [Function.update_noteq he]
      exact ho.queued_once e1
  · by_cases h1 : e1 = e
    · subst h1
      have h2 : e2 ≠ e1 := fun h => hne h.symm
      simp only [Function.update_same] at hp
      simp only [Function.update_noteq h2]
      exact ho.queued_apart e1 e2 hne p (hsub p hp)
    · simp only [Function.update_noteq h1] at hp
      by_cases h2 : e2 = e
      · subst h2
        simp only [Function.update_same]
        exact fun h => ho.queued_apart e1 e2 hne p hp (hsub p h)
      · simp only [Function.update_noteq h2]
        exact ho.queued_apart e1 e2 hne p hp
  · have hba : b ≠ a := by
      rintro rfl
      exact ho.pending_free b hb e hmem
    simpa only [Function.update_noteq hba] using ho.pending_live b hb
  · by_cases he : e1 = e
    · subst he
      simp only [Function.update_same]
      exact fun h => ho.pending_free b hb e1 (hsub _ h)
    · simp only [Function.update_noteq he]
      exact ho.pending_free b hb e1

/-! ## First in, first out -/

theorem send_cases (e : Nat) (p : Ptr) (thr : Bool) (s : State) :
    (send e p thr s = (-1, s) ∧ (Call.send e p thr).enqueued = none) ∨
    ∃ (he : e < MAX_SIZE) (a : Nat), p = some a ∧ thr = false ∧
      (Call.send e p thr).enqueued = some a ∧
      send e p thr s =
        (0, { s with
              thread_queues :=
                Function.update s.thread_queues ⟨e, he⟩ (s.thread_queues ⟨e, he⟩ ++ [some a]) }) := by
  cases p with
  | none => exact Or.inl ⟨send_null e thr s, rfl⟩
  | some a =>
    cases thr with
    | true => exact Or.inl ⟨send_throws e _ s, rfl⟩
    | false =>
      by_cases he : e < MAX_SIZE
      · exact Or.inr ⟨he, a, rfl, rfl, by simp [Call.enqueued, he], send_valid ⟨e, he⟩ a s⟩
      · exact Or.inl ⟨send_out_of_range e _ _ s (Nat.le_of_not_lt he),
          by simp [Call.enqueued, he]⟩

theorem recv_cases (w e : Nat) (o : Option message_t) (s : State)
    (hlive : ∀ e p, p ∈ s.thread_queues e → ∃ a, p = some a ∧ s.heap a ≠ none) :
    recv w e o s = some (-1, o, s) ∨
    ∃ (he : e < MAX_SIZE) (o1 : message_t) (b : Nat) (rest : List Ptr) (m : message_t),
      o = some o1 ∧ s.thread_queues ⟨e, he⟩ = some b :: rest ∧ s.heap b = some m ∧
      recv w e o s =
        some (0, some m,
          { heap := Function.update s.heap b none
            thread_queues := Function.update s.thread_queues ⟨e, he⟩ rest
            created_message_counter := (s.created_message_counter + 2 ^ w - 1) % 2 ^ w }) := by
  cases o with
  | none => exact Or.inl (recv_null w e s)
  | some o1 =>
    by_cases he : e < MAX_SIZE
    · cases hq : s.thread_queues ⟨e, he⟩ with
      | nil => exact Or.inl (recv_valid_empty w ⟨e, he⟩ _ s hq)
      | cons p rest =>
        obtain ⟨b, rfl, hb⟩ := hlive ⟨e, he⟩ p (by rw [hq]; exact List.mem_cons_self _ _)
        obtain ⟨m, hm⟩ := Option.ne_none_iff_exists'.mp hb
        exact Or.inr ⟨he, o1, b, rest, m, rfl, hq, hm, recv_valid_front w ⟨e, he⟩ o1 s b rest m hq hm⟩
    · exact Or.inl (recv_out_of_range w e _ s (Nat.le_of_not_lt he))

theorem run_cons_of_step (w : Nat) (c : Call) (cs : List Call) (s s1 t : State) (r : Ret)
    (rs : List Ret) (hstep : step w s c = some (r, s1)) (hrun : run w s1 cs = some (rs, t)) :
    run w s (c :: cs) = some (r :: rs, t) := by
  rw [run_cons, hstep, Option.some_bind, hrun, Option.map_some']

theorem resultsAt_cons_hit (d : Nat) (c : Call) (cs : List Call) (r : Ret) (rs : List Ret)
    (h : c.target = some d) : resultsAt d (c :: cs) (r :: rs) = r :: resultsAt d cs rs := by
  simp [resultsAt, h]

theorem resultsAt_cons_miss (d : Nat) (c : Call) (cs : List Call) (r : Ret) (rs : List Ret)
    (h : c.target ≠ some d) : resultsAt d (c :: cs) (r :: rs) = resultsAt d cs rs := by
  simp [resultsAt, h]

theorem mem_pending_of_sent (d : Fin MAX_SIZE) (tr : List Call) (ps : List Nat)
    (rest : List Call)
    (hf : tr.filter (fun c => decide (c.target = some d.val)) =
      ps.map (fun a => Call.send d.val (some a) false) ++ rest) (x : Nat) (hx : x ∈ ps) :
    x ∈ tr.filterMap Call.enqueued := by
  have h1 : Call.send d.val (some x) false ∈ tr.filter (fun c => decide (c.target = some d.val)) := by
    rw [hf]
    exact List.mem_append_left _ (List.mem_map.mpr ⟨x, hx, rfl⟩)
  have h2 : Call.send d.val (some x) false ∈ tr := (List.mem_filter.mp h1).1
  exact List.mem_filterMap.mpr ⟨_, h2, by simp [Call.enqueued, d.isLt]⟩

theorem fifo_general (w : Nat) (d : Fin MAX_SIZE) (H : Nat → Option message_t)
    (tr : List Call) :
    ∀ (s : State) (q ps : List Nat) (outs : List message_t),
      (∀ c ∈ tr, c.target ≠ none) →
      Owned s (tr.filterMap Call.enqueued) →
      s.thread_queues d = q.map some →
      tr.filter (fun c => decide (c.target = some d.val)) =
        ps.map (fun a => Call.send d.val (some a) false) ++
          outs.map (fun o => Call.recv d.val (some o)) →
      outs.length ≤ q.length + ps.length →
      (∀ a, a ∈ q ++ ps → s.heap a = H a) →
      ∃ rs t, run w s tr = some (rs, t) ∧
        resultsAt d.val tr rs =
          ps.map (fun _ => Ret.status 0) ++
            ((q ++ ps).take outs.length).map (fun a => Ret.received 0 (H a)) := by
  induction tr with
  | nil =>
    intro s q ps outs _ _ _ hf _ _
    have hnil : ps = [] ∧ outs = [] := by simpa using hf.symm
    obtain ⟨rfl, rfl⟩ := hnil
    exact ⟨[], s, rfl, by simp [resultsAt]⟩
  | cons c tr ih =>
    intro s q ps outs honly ho hq hf hlen hH
    have honly2 : ∀ c ∈ tr, c.target ≠ none := fun c hc => honly c (List.mem_cons_of_mem _ hc)
    cases c with
    | new_message alloc => exact absurd rfl (honly _ (List.mem_cons_self _ _))
    | delete_message msg => exact absurd rfl (honly _ (List.mem_cons_self _ _))
    | send e p thr =>
      by_cases hed : e = d.val
      · -- a send to the destination: it is the first of the sends still to come
        subst hed
        rw [List.filter_cons_of_pos (by simp [Call.target])] at hf
        cases ps with
        | nil =>
          cases outs with
          | nil => simp at hf
          | cons o outs => simp at hf
        | cons a ps =>
          simp only [List.map_cons, List.cons_append, List.cons.injEq, Call.send.injEq,
            true_and] at hf
          obtain ⟨⟨rfl, rfl⟩, hf⟩ := hf
          have henq : (Call.send d.val (some a) false).enqueued = some a := by
            simp [Call.enqueued, d.isLt]
          rw [List.filterMap_cons_some henq] at ho
          have ho2 := owned_send s d a _ ho
          obtain ⟨rs, t, hrun, hres⟩ := ih _ (q ++ [a]) ps outs honly2 ho2
            (by simp [hq]) hf (by simp only [List.length_append, List.length_cons,
              List.length_nil] at hlen ⊢; omega)
            (fun x hx => hH x (by simp only [List.mem_append, List.mem_cons,
              List.mem_singleton, List.not_mem_nil, or_false] at hx ⊢; tauto))
          refine ⟨Ret.status 0 :: rs, t, run_cons_of_step w _ tr s _ t _ rs ?_ hrun, ?_⟩
          · simp only [step, send_valid]
          · rw [resultsAt_cons_hit d.val (Call.send d.val (some a) false) _ _ _ rfl, hres]
            simp
      · -- a send to another destination
        have hmiss : (Call.send e p thr).target ≠ some d.val := by
          simpa [Call.target] using hed
        rw [List.filter_cons_of_neg (by simpa using hmiss)] at hf
        rcases send_cases e p thr s with ⟨hs, henq⟩ | ⟨he, a, rfl, rfl, henq, hs⟩
        · rw [List.filterMap_cons_none henq] at ho
          obtain ⟨rs, t, hrun, hres⟩ := ih s q ps outs honly2 ho hq hf hlen hH
          refine ⟨Ret.status (-1) :: rs, t, run_cons_of_step w _ tr s s t _ rs ?_ hrun, ?_⟩
          · simp only [step, hs]
          · rw [resultsAt_cons_miss _ _ _ _ _ hmiss, hres]
        · rw [List.filterMap_cons_some henq] at ho
          have ho2 := owned_send s ⟨e, he⟩ a _ ho
          have hne : d ≠ ⟨e, he⟩ := fun h => hed (by rw [h])
          obtain ⟨rs, t, hrun, hres⟩ := ih _ q ps outs honly2 ho2
            (by simp only [Function.update_noteq hne]; exact hq) hf hlen hH
          refine ⟨Ret.status 0 :: rs, t, run_cons_of_step w _ tr s _ t _ rs ?_ hrun, ?_⟩
          · simp only [step, hs]
          · rw [resultsAt_cons_miss _ _ _ _ _ hmiss, hres]
    | recv e o =>
      have henq : (Call.recv e o).enqueued = none := rfl
      rw [List.filterMap_cons_none henq] at ho
      by_cases hed : e = d.val
      · -- a recv from the destination: all the sends have been made
        subst hed
        rw [List.filter_cons_of_pos (by simp [Call.target])] at hf
        cases ps with
        | cons a ps => simp at hf
        | nil =>
          cases outs with
          | nil => simp at hf
          | cons o1 outs =>
            simp only [List.map_nil, List.nil_append, List.map_cons, List.cons.injEq,
              Call.recv.injEq, true_and] at hf
            obtain ⟨rfl, hf⟩ := hf
            cases q with
            | nil => simp at hlen
            | cons b q =>
              have hqd : s.thread_queues d = some b :: q.map some := by simpa using hq
              obtain ⟨b1, hb1, hb⟩ := ho.queued_live d (some b)
                (by rw [hqd]; exact List.mem_cons_self _ _)
              obtain ⟨m, hm⟩ := Option.ne_none_iff_exists'.mp hb
              injection hb1 with hb1
              subst hb1
              have ho2 := owned_recv s d b (q.map some)
                ((s.created_message_counter + 2 ^ w - 1) % 2 ^ w) _ ho hqd
              have hnd : (some b :: q.map some).Nodup := hqd ▸ ho.queued_once d
              obtain ⟨rs, t, hrun, hres⟩ := ih _ q [] outs honly2 ho2
                (by simp) (by simpa using hf)
                (by simp only [List.length_cons, List.length_nil, Nat.add_zero] at hlen ⊢; omega)
                (fun x hx => by
                  have hxq : x ∈ q := by simpa using hx
                  have hxb : x ≠ b := by
                    rintro rfl
                    exact (List.nodup_cons.mp hnd).1 (List.mem_map.mpr ⟨x, hxq, rfl⟩)
                  show Function.update s.heap b none x = H x
                  rw [Function.update_noteq hxb]
                  exact hH x (by simp [hxq]))
              refine ⟨Ret.received 0 (some m) :: rs, t,
                run_cons_of_step w _ tr s _ t _ rs ?_ hrun, ?_⟩
              · simp only [step, recv_valid_front w d o1 s b (q.map some) m hqd hm,
                  Option.map_some']
              · rw [resultsAt_cons_hit d.val (Call.recv d.val (some o1)) _ _ _ rfl, hres]
                have hHb : H b = some m := by rw [← hH b (by simp), hm]
                simp [hHb]
      · -- a recv from another receiver
        have hmiss : (Call.recv e o).target ≠ some d.val := by
          simpa [Call.target] using hed
        rw [List.filter_cons_of_neg (by simpa using hmiss)] at hf
        rcases recv_cases w e o s ho.queued_live with
          hr | ⟨he, o1, b, rest, m, rfl, hqe, hb, hr⟩
        · obtain ⟨rs, t, hrun, hres⟩ := ih s q ps outs honly2 ho hq hf hlen hH
          refine ⟨Ret.received (-1) o :: rs, t, run_cons_of_step w _ tr s s t _ rs ?_ hrun, ?_⟩
          · simp only [step, hr, Option.map_some']
          · rw [resultsAt_cons_miss _ _ _ _ _ hmiss, hres]
        · have ho2 := owned_recv s ⟨e, he⟩ b rest
            ((s.created_message_counter + 2 ^ w - 1) % 2 ^ w) _ ho hqe
          have hne : d ≠ ⟨e, he⟩ := fun h => hed (by rw [h])
          have hbq : some b ∈ s.thread_queues ⟨e, he⟩ := by
            rw [hqe]; exact List.mem_cons_self _ _
          obtain ⟨rs, t, hrun, hres⟩ := ih _ q ps outs honly2 ho2
            (by simp only [Function.update_noteq hne]; exact hq) hf hlen
            (fun x hx => by
              have hxb : x ≠ b := by
                rintro rfl
                rcases List.mem_append.mp hx with hxq | hxp
                · have hxd : some x ∈ s.thread_queues d := by
                    rw [hq]; exact List.mem_map.mpr ⟨x, hxq, rfl⟩
                  exact ho.queued_apart d ⟨e, he⟩ hne (some x) hxd hbq
                · exact ho.pending_free x (mem_pending_of_sent d tr ps _ hf x hxp) _ hbq
              show Function.update s.heap b none x = H x
              rw [Function.update_noteq hxb]
              exact hH x hx)
          refine ⟨Ret.received 0 (some m) :: rs, t,
            run_cons_of_step w _ tr s _ t _ rs ?_ hrun, ?_⟩
          · simp only [step, hr, Option.map_some']
          · rw [resultsAt_cons_miss _ _ _ _ _ hmiss, hres]

/-- C1: let `d` be a valid destination whose queue is empty and `tr` a sequence of `send` and
`recv` calls in which the calls on `d` are, in this order, `send(d, m1)`, ..., `send(d, mn)`,
none of whose pushes throws, and then `n` calls `recv(d, out)`, with calls on other identifiers
(sends whose push throws among them) interleaved anywhere. When
the buffers are owned as the spec requires (queued handles live and queued once, the handles
sent live, distinct and not queued before), the whole sequence executes, every `send` on `d`
returns `0`, and the `i`-th `recv` on `d` returns `0` and writes into `out` exactly the
contents that `mi` has in the starting state. -/
theorem strict_fifo (w : Nat) (d : Fin MAX_SIZE) (s : State) (tr : List Call)
    (ps : List Nat) (outs : List message_t)
    (hq : s.thread_queues d = [])
    (honly : ∀ c ∈ tr, c.target ≠ none)
    (hcalls : tr.filter (fun c => decide (c.target = some d.val)) =
      ps.map (fun a => Call.send d.val (some a) false) ++
        outs.map (fun o => Call.recv d.val (some o)))
    (hlen : outs.length = ps.length)
    (hown : Owned s (tr.filterMap Call.enqueued)) :
    (∀ a, a ∈ ps → s.heap a ≠ none) ∧
    ∃ rs t, run w s tr = some (rs, t) ∧
      resultsAt d.val tr rs =
        ps.map (fun _ => Ret.status 0) ++ ps.map (fun a => Ret.received 0 (s.heap a)) := by
  refine ⟨fun a ha => hown.pending_live a (mem_pending_of_sent d tr ps _ hcalls a ha), ?_⟩
  obtain ⟨rs, t, hrun, hres⟩ := fifo_general w d s.heap tr s [] ps outs honly hown
    (by simp [hq]) hcalls (by simp [hlen]) (fun _ _ => rfl)
  refine ⟨rs, t, hrun, ?_⟩
  rw [hres, hlen, List.nil_append, List.take_length]

theorem strict_fifo_witness :
    State.threeAllocated.thread_queues ⟨2, by decide⟩ = [] ∧
    (∀ c ∈ fifoCalls, c.target ≠ none) ∧
    Owned State.threeAllocated (fifoCalls.filterMap Call.enqueued) ∧
    ∃ rs t, run 64 State.threeAllocated fifoCalls = some (rs, t) ∧
      resultsAt 2 fifoCalls rs =
        [Ret.status 0, Ret.status 0, Ret.status 0, Ret.received 0 (some (msgFifo 0)),
          Ret.received 0 (some (msgFifo 1)), Ret.received 0 (some (msgFifo 2))] :=
  have honly : ∀ c ∈ fifoCalls, c.target ≠ none := by
    simp [fifoCalls, Call.target]
  have hown : Owned State.threeAllocated (fifoCalls.filterMap Call.enqueued) := by
    have hpend : fifoCalls.filterMap Call.enqueued = [0, 1, 2] := rfl
    rw [hpend]
    refine ⟨fun e p hp => ?_, fun e => List.nodup_nil, fun e1 e2 _ p hp => ?_, by decide,
      fun a ha => ?_, fun a _ e h => ?_⟩
    · exact absurd hp (List.not_mem_nil p)
    · exact absurd hp (List.not_mem_nil p)
    · have h3 : a < 3 := by
        simp only [List.mem_cons, List.mem_singleton, List.not_mem_nil, or_false] at ha
        omega
      simp [State.threeAllocated, h3]
    · exact absurd h (List.not_mem_nil _)
  have hcalls : fifoCalls.filter (fun c => decide (c.target = some 2)) =
      [0, 1, 2].map (fun a => Call.send 2 (some a) false) ++
        [message_t.zeroed, message_t.zeroed, message_t.zeroed].map
          (fun o => Call.recv 2 (some o)) := by
    simp [fifoCalls, Call.target]
  ⟨rfl, honly, hown,
    (strict_fifo 64 ⟨2, by decide⟩ State.threeAllocated fifoCalls [0, 1, 2]
      [message_t.zeroed, message_t.zeroed, message_t.zeroed] rfl honly hcalls rfl hown).2⟩

/-! ## The unchecked release -/

/-- C14: `delete_message` performs no check on the counter: on a platform whose `size_t` of
width `w` holds `MAX_MSGS`, a release performed when the counter is `0`, of any handle (null,
never allocated or already released), leaves the counter at `2 ^ w - 1`, which is greater than
`MAX_MSGS`; and from that state every `new_message` call, however many are made and whatever
the allocator would do, returns `nullptr` and changes nothing. -/
theorem unchecked_release_wraps (w : Nat) (hw : MAX_MSGS < 2 ^ w) (s : State) (msg : Ptr)
    (h0 : s.created_message_counter = 0) :
    (delete_message w msg s).created_message_counter = 2 ^ w - 1 ∧
    MAX_MSGS < 2 ^ w - 1 ∧
    ∀ allocs : List (Option Nat),
      run w (delete_message w msg s) (allocs.map Call.new_message) =
        some (allocs.map (fun _ => Ret.handle none), delete_message w msg s) := by
  have hpos : 0 < 2 ^ w := Nat.pow_pos (by decide)
  have hcnt : (delete_message w msg s).created_message_counter = 2 ^ w - 1 := by
    show (s.created_message_counter + 2 ^ w - 1) % 2 ^ w = 2 ^ w - 1
    rw [h0, Nat.zero_add, Nat.mod_eq_of_lt (by omega)]
  have hw12 : 12 ≤ w := by
    by_contra hlt
    have h11 : w ≤ 11 := by omega
    have hle : 2 ^ w ≤ 2 ^ 11 := Nat.pow_le_pow_right (by decide) h11
    have h2048 : MAX_MSGS = 2 ^ 11 := by decide
    omega
  have hbig : MAX_MSGS < 2 ^ w - 1 := by
    have hle : 2 ^ 12 ≤ 2 ^ w := Nat.pow_le_pow_right (by decide) hw12
    have h2048 : MAX_MSGS = 2048 := rfl
    have h4096 : 2 ^ 12 = 4096 := by decide
    omega
  refine ⟨hcnt, hbig, fun allocs => ?_⟩
  have hnew : ∀ alloc, new_message w alloc (delete_message w msg s) =
      (none, delete_message w msg s) := by
    intro alloc
    have hnot : ¬ (delete_message w msg s).created_message_counter < MAX_MSGS := by
      rw [hcnt]; omega
    simp only [new_message, hnot, if_false]
  induction allocs with
  | nil => rfl
  | cons alloc rest ih =>
    rw [List.map_cons, run_cons]
    simp only [step, hnew, Option.some_bind, ih, Option.map_some', List.map_cons]

theorem unchecked_release_wraps_witness :
    MAX_MSGS < 2 ^ 64 ∧ State.initial.created_message_counter = 0 ∧
    (delete_message 64 none State.initial).created_message_counter = 2 ^ 64 - 1 ∧
    (new_message 64 (some 0) (delete_message 64 none State.initial)).1 = none :=
  have h := unchecked_release_wraps 64 (by decide) State.initial none rfl
  ⟨by decide, rfl, h.1, by
    have h2 := h.2.2 [some 0]
    simp only [List.map_cons, List.map_nil, run_cons, run_nil, step, Option.some_bind,
      Option.map_some', Option.some.injEq, Prod.mk.injEq, List.cons.injEq, Ret.handle.injEq,
      and_true] at h2
    exact h2.1⟩

/-! ## Calls on different destinations commute -/

theorem recv_front_null (w : Nat) (d : Fin MAX_SIZE) (o : message_t) (s : State)
    (rest : List Ptr) (hq : s.thread_queues d = none :: rest) :
    recv w d.val (some o) s = none := by
  have hd : ¬ MAX_SIZE ≤ d.val := Nat.not_le.mpr d.isLt
  unfold recv
  split
  · rename_i h
    simp [hd] at h
  · simp only [Fin.eta, hq]

theorem recv_front_dead (w : Nat) (d : Fin MAX_SIZE) (o : message_t) (s : State)
    (a : Nat) (rest : List Ptr) (hq : s.thread_queues d = some a :: rest)
    (ha : s.heap a = none) : recv w d.val (some o) s = none := by
  have hd : ¬ MAX_SIZE ≤ d.val := Nat.not_le.mpr d.isLt
  unfold recv
  split
  · rename_i h
    simp [hd] at h
  · simp only [Fin.eta, hq, ha]

theorem recv_eq (w : Nat) (d : Fin MAX_SIZE) (o : message_t) (s : State) :
    recv w d.val (some o) s =
      match s.thread_queues d with
      | [] => some (-1, some o, s)
      | none :: _ => none
      | some a :: rest =>
        match s.heap a with
        | none => none
        | some m =>
          some (0, some m,
            { heap := Function.update s.heap a none
              thread_queues := Function.update s.thread_queues d rest
              created_message_counter := (s.created_message_counter + 2 ^ w - 1) % 2 ^ w }) := by
  rcases hq : s.thread_queues d with _ | ⟨_ | a, rest⟩
  · exact recv_valid_empty w d _ s hq
  · exact recv_front_null w d o s _ hq
  · cases ha : s.heap a with
    | none => simpa only [ha] using recv_front_dead w d o s a rest hq ha
    | some m => simpa only [ha] using recv_valid_front w d o s a rest m hq ha

theorem recv_recv_comm (w : Nat) (d1 d2 : Fin MAX_SIZE) (hne : d1 ≠ d2)
    (o1 o2 : Option message_t) (s : State) :
    run w s [Call.recv d1.val o1, Call.recv d2.val o2] =
      (run w s [Call.recv d2.val o2, Call.recv d1.val o1]).map fun p => (p.1.reverse, p.2) := by
  have hne2 : d2 ≠ d1 := fun h => hne h.symm
  simp only [run_cons, run_nil, step]
  cases o1 with
  | none =>
    cases h : recv w d2.val o2 s <;> simp [recv_null, h]
  | some m1 =>
    cases o2 with
    | none =>
      cases h : recv w d1.val (some m1) s <;> simp [recv_null, h]
    | some m2 =>
      simp only [recv_eq]
      rcases h1 : s.thread_queues d1 with _ | ⟨_ | a1, r1⟩ <;>
        rcases h2 : s.thread_queues d2 with _ | ⟨_ | a2, r2⟩ <;>
        (try cases e1 : s.heap a1) <;> (try cases e2 : s.heap a2) <;>
        (try by_cases ha : a2 = a1) <;>
        (try have ha2 : ¬ a1 = a2 := fun h => ha h.symm) <;>
        (try simp [*, Function.update_noteq hne, Function.update_noteq hne2,
          Function.update_apply])
      exact ⟨Function.update_comm ha2 _ _ _, Function.update_comm hne _ _ _⟩

theorem send_recv_comm (w : Nat) (d1 d2 : Fin MAX_SIZE) (hne : d1 ≠ d2) (p : Ptr)
    (thr : Bool) (o : Option message_t) (s : State) :
    run w s [Call.send d1.val p thr, Call.recv d2.val o] =
      (run w s [Call.recv d2.val o, Call.send d1.val p thr]).map
        fun q => (q.1.reverse, q.2) := by
  have hne2 : d2 ≠ d1 := fun h => hne h.symm
  simp only [run_cons, run_nil, step]
  cases p with
  | none =>
    cases h : recv w d2.val o s <;> simp [send_null, h]
  | some a =>
    cases thr with
    | true =>
      cases h : recv w d2.val o s <;> simp [send_throws, h]
    | false =>
      cases o with
      | none => simp [recv_null, send_valid]
      | some m =>
        simp only [recv_eq, send_valid]
        rcases h2 : s.thread_queues d2 with _ | ⟨_ | a2, r2⟩ <;>
          (try cases e2 : s.heap a2) <;>
          (try simp [*, Function.update_noteq hne, Function.update_noteq hne2])
        exact Function.update_comm hne _ _ _

theorem send_send_comm (w : Nat) (d1 d2 : Fin MAX_SIZE) (hne : d1 ≠ d2) (p1 p2 : Ptr)
    (thr1 thr2 : Bool) (s : State) :
    run w s [Call.send d1.val p1 thr1, Call.send d2.val p2 thr2] =
      (run w s [Call.send d2.val p2 thr2, Call.send d1.val p1 thr1]).map
        fun q => (q.1.reverse, q.2) := by
  have hne2 : d2 ≠ d1 := fun h => hne h.symm
  simp only [run_cons, run_nil, step]
  cases p1 with
  | none => simp [send_null]
  | some a1 =>
    cases thr1 with
    | true => simp [send_throws]
    | false =>
      cases p2 with
      | none => simp [send_null]
      | some a2 =>
        cases thr2 with
        | true => simp [send_throws]
        | false =>
          simp [send_valid, Function.update_noteq hne, Function.update_noteq hne2]
          exact Function.update_comm hne _ _ _

/-- C16: for every state and every two distinct valid destinations `d1 ≠ d2`, a call on `d1`
and a call on `d2`, each a `send` or a `recv` with its own arguments, commute: executed in
either order they give the same return codes and the same output contents (the two results,
listed in the order of the calls) and the same final state: all queues, the counter and the
store; and one order has undefined behaviour exactly when the other has. -/
theorem destinations_independent (w : Nat) (d1 d2 : Fin MAX_SIZE) (hne : d1 ≠ d2)
    (c1 c2 : Call) (s : State) (h1 : c1.target = some d1.val) (h2 : c2.target = some d2.val) :
    run w s [c1, c2] = (run w s [c2, c1]).map fun q => (q.1.reverse, q.2) := by
  have hne2 : d2 ≠ d1 := fun h => hne h.symm
  have hrev : ∀ x : Option (List Ret × State),
      (x.map fun q => (q.1.reverse, q.2)).map (fun q => (q.1.reverse, q.2)) = x := by
    intro x
    cases x <;> simp
  cases c1 with
  | new_message alloc => simp [Call.target] at h1
  | delete_message msg => simp [Call.target] at h1
  | send e1 p1 thr1 =>
    have he1 : e1 = d1.val := by simpa [Call.target] using h1
    subst he1
    cases c2 with
    | new_message alloc => simp [Call.target] at h2
    | delete_message msg => simp [Call.target] at h2
    | send e2 p2 thr2 =>
      have he2 : e2 = d2.val := by simpa [Call.target] using h2
      subst he2
      exact send_send_comm w d1 d2 hne p1 p2 thr1 thr2 s
    | recv e2 o2 =>
      have he2 : e2 = d2.val := by simpa [Call.target] using h2
      subst he2
      exact send_recv_comm w d1 d2 hne p1 thr1 o2 s
  | recv e1 o1 =>
    have he1 : e1 = d1.val := by simpa [Call.target] using h1
    subst he1
    cases c2 with
    | new_message alloc => simp [Call.target] at h2
    | delete_message msg => simp [Call.target] at h2
    | send e2 p2 thr2 =>
      have he2 : e2 = d2.val := by simpa [Call.target] using h2
      subst he2
      rw [send_recv_comm w d2 d1 hne2 p2 thr2 o1 s, hrev]
    | recv e2 o2 =>
      have he2 : e2 = d2.val := by simpa [Call.target] using h2
      subst he2
      exact recv_recv_comm w d1 d2 hne o1 o2 s

theorem destinations_independent_witness :
    (⟨1, by decide⟩ : Fin MAX_SIZE) ≠ ⟨0, by decide⟩ ∧
    run 64 State.oneQueued [Call.send 1 (some 5) false, Call.recv 0 (some message_t.zeroed)] =
      (run 64 State.oneQueued [Call.recv 0 (some message_t.zeroed), Call.send 1 (some 5) false]).map
        fun q => (q.1.reverse, q.2) :=
  ⟨by decide,
    destinations_independent 64 ⟨1, by decide⟩ ⟨0, by decide⟩ (by decide) _ _ State.oneQueued
      rfl rfl⟩

/-! ## The queue ordering invariant over arbitrary traces -/

theorem run_cons_some (w : Nat) (c : Call) (cs : List Call) (s t : State) (rs : List Ret)
    (h : run w s (c :: cs) = some (rs, t)) :
    ∃ r s1 rs1, step w s c = some (r, s1) ∧ run w s1 cs = some (rs1, t) ∧ rs = r :: rs1 := by
  rw [run_cons] at h
  cases hstep : step w s c with
  | none => simp [hstep] at h
  | some p =>
    rw [hstep, Option.some_bind] at h
    cases hrun : run w p.2 cs with
    | none => simp [hrun] at h
    | some q =>
      rw [hrun, Option.map_some', Option.some.injEq, Prod.mk.injEq] at h
      exact ⟨p.1, p.2, q.1, rfl, by rw [← h.2, hrun], h.1.symm⟩

theorem recv_some_cases (w e : Nat) (o : Option message_t) (s : State)
    (r : Int × Option message_t × State) (h : recv w e o s = some r) :
    r = (-1, o, s) ∨
    ∃ (he : e < MAX_SIZE) (o1 : message_t) (b : Nat) (rest : List Ptr) (m : message_t),
      o = some o1 ∧ s.thread_queues ⟨e, he⟩ = some b :: rest ∧ s.heap b = some m ∧
      r = (0, some m,
        { heap := Function.update s.heap b none
          thread_queues := Function.update s.thread_queues ⟨e, he⟩ rest
          created_message_counter := (s.created_message_counter + 2 ^ w - 1) % 2 ^ w }) := by
  cases o with
  | none =>
    rw [recv_null] at h
    exact Or.inl (Option.some.inj h).symm
  | some o1 =>
    by_cases he : e < MAX_SIZE
    · have heq := recv_eq w ⟨e, he⟩ o1 s
      rw [show (⟨e, he⟩ : Fin MAX_SIZE).val = e from rfl, h] at heq
      rcases hq : s.thread_queues ⟨e, he⟩ with _ | ⟨_ | b, rest⟩
      · rw [hq] at heq
        exact Or.inl (Option.some.inj heq)
      · rw [hq] at heq
        simp at heq
      · rw [hq] at heq
        cases hb : s.heap b with
        | none => simp [hb] at heq
        | some m =>
          simp only [hb, Option.some.injEq] at heq
          exact Or.inr ⟨he, o1, b, rest, m, rfl, hq, hb, heq⟩
    · rw [recv_out_of_range w e _ s (Nat.le_of_not_lt he)] at h
      exact Or.inl (Option.some.inj h).symm

theorem sentTo_cons_send (d e : Nat) (p : Ptr) (thr : Bool) (code : Int) (cs : List Call)
    (rs : List Ret) :
    sentTo d (Call.send e p thr :: cs) (Ret.status code :: rs) =
      if e = d ∧ code = 0 then p :: sentTo d cs rs else sentTo d cs rs := by
  by_cases h : e = d ∧ code = 0 <;> simp [sentTo, sentHandle, h]

theorem sentTo_cons_recv (d e : Nat) (o : Option message_t) (r : Ret) (cs : List Call)
    (rs : List Ret) : sentTo d (Call.recv e o :: cs) (r :: rs) = sentTo d cs rs := by
  simp [sentTo, sentHandle]

theorem receivedFrom_cons_recv (d e : Nat) (o out : Option message_t) (code : Int)
    (cs : List Call) (rs : List Ret) :
    receivedFrom d (Call.recv e o :: cs) (Ret.received code out :: rs) =
      if e = d ∧ code = 0 then out :: receivedFrom d cs rs else receivedFrom d cs rs := by
  by_cases h : e = d ∧ code = 0 <;> simp [receivedFrom, receivedContents, h]

theorem receivedFrom_cons_send (d e : Nat) (p : Ptr) (thr : Bool) (r : Ret) (cs : List Call)
    (rs : List Ret) :
    receivedFrom d (Call.send e p thr :: cs) (r :: rs) = receivedFrom d cs rs := by
  simp [receivedFrom, receivedContents]

theorem fifo_of_defined (w : Nat) (H : Nat → Option message_t) (tr : List Call) :
    ∀ (s t : State) (rs : List Ret),
      (∀ c ∈ tr, c.target ≠ none) →
      (∀ a m, s.heap a = some m → H a = some m) →
      run w s tr = some (rs, t) →
      ∀ d : Fin MAX_SIZE,
        receivedFrom d.val tr rs =
          ((s.thread_queues d ++ sentTo d.val tr rs).take
            (receivedFrom d.val tr rs).length).map (fun p => p.bind H) ∧
        t.thread_queues d =
          (s.thread_queues d ++ sentTo d.val tr rs).drop (receivedFrom d.val tr rs).length := by
  induction tr with
  | nil =>
    intro s t rs _ _ hrun d
    rw [run_nil, Option.some.injEq, Prod.mk.injEq] at hrun
    obtain ⟨rfl, rfl⟩ := hrun
    simp [receivedFrom, sentTo]
  | cons c tr ih =>
    intro s t rs honly hH hrun d
    have honly2 : ∀ c ∈ tr, c.target ≠ none := fun c hc => honly c (List.mem_cons_of_mem _ hc)
    obtain ⟨r, s1, rs1, hstep, hrun1, rfl⟩ := run_cons_some w c tr s t rs hrun
    cases c with
    | new_message alloc => exact absurd rfl (honly _ (List.mem_cons_self _ _))
    | delete_message msg => exact absurd rfl (honly _ (List.mem_cons_self _ _))
    | send e p thr =>
      simp only [step, Option.some.injEq, Prod.mk.injEq] at hstep
      obtain ⟨rfl, rfl⟩ := hstep
      rw [receivedFrom_cons_send, sentTo_cons_send]
      rcases send_cases e p thr s with ⟨hs, -⟩ | ⟨he, a, rfl, rfl, -, hs⟩
      · rw [hs] at hrun1 ⊢
        have hno : ¬ (e = d.val ∧ ((-1 : Int), s).1 = 0) := fun h => by
          have h2 := h.2
          simp at h2
        rw [if_neg hno]
        exact ih s t rs1 honly2 hH hrun1 d
      · rw [hs] at hrun1 ⊢
        have hrun2 : run w { s with
            thread_queues :=
              Function.update s.thread_queues ⟨e, he⟩ (s.thread_queues ⟨e, he⟩ ++ [some a]) } tr =
            some (rs1, t) := hrun1
        obtain ⟨h1, h2⟩ := ih { s with
            thread_queues :=
              Function.update s.thread_queues ⟨e, he⟩ (s.thread_queues ⟨e, he⟩ ++ [some a]) }
          t rs1 honly2 (fun a m h => hH a m h) hrun2 d
        by_cases hed : e = d.val
        · subst hed
          simp only [Fin.eta, Function.update_same, List.append_assoc,
            List.singleton_append] at h1 h2
          rw [if_pos ⟨rfl, rfl⟩]
          exact ⟨h1, h2⟩
        · have hne : d ≠ ⟨e, he⟩ := fun h => hed (by rw [h])
          simp only [Function.update_noteq hne] at h1 h2
          rw [if_neg (fun h => hed h.1)]
          exact ⟨h1, h2⟩
    | recv e o =>
      simp only [step, Option.map_eq_some'] at hstep
      obtain ⟨x, hx, hr⟩ := hstep
      rw [Prod.mk.injEq] at hr
      obtain ⟨rfl, rfl⟩ := hr
      rw [receivedFrom_cons_recv, sentTo_cons_recv]
      rcases recv_some_cases w e o s x hx with rfl | ⟨he, o1, b, rest, m, rfl, hq, hb, rfl⟩
      · have hno : ¬ (e = d.val ∧ ((-1 : Int), o, s).1 = 0) := fun h => by
          have h2 := h.2
          simp at h2
        rw [if_neg hno]
        exact ih s t rs1 honly2 hH hrun1 d
      · have hH2 : ∀ a m1, Function.update s.heap b none a = some m1 → H a = some m1 := by
          intro a m1 ha
          by_cases hab : a = b
          · subst hab
            simp at ha
          · rw [Function.update_noteq hab] at ha
            exact hH a m1 ha
        have hrun2 : run w
            { heap := Function.update s.heap b none
              thread_queues := Function.update s.thread_queues ⟨e, he⟩ rest
              created_message_counter := (s.created_message_counter + 2 ^ w - 1) % 2 ^ w } tr =
            some (rs1, t) := hrun1
        obtain ⟨h1, h2⟩ := ih
          { heap := Function.update s.heap b none
            thread_queues := Function.update s.thread_queues ⟨e, he⟩ rest
            created_message_counter := (s.created_message_counter + 2 ^ w - 1) % 2 ^ w }
          t rs1 honly2 hH2 hrun2 d
        by_cases hed : e = d.val
        · subst hed
          simp only [Fin.eta, Function.update_same] at h1 h2
          simp only [Fin.eta] at hq
          have hHb : H b = some m := hH b m hb
          rw [if_pos ⟨rfl, rfl⟩, hq]
          simp only [List.length_cons, List.cons_append, List.take_succ_cons, List.map_cons,
            Option.some_bind, hHb, List.drop_succ_cons]
          exact ⟨by rw [← h1], h2⟩
        · have hne : d ≠ ⟨e, he⟩ := fun h => hed (by rw [h])
          simp only [Function.update_noteq hne] at h1 h2
          rw [if_neg (fun h => hed h.1)]
          exact ⟨h1, h2⟩

theorem run_defined_of_owned (w : Nat) (tr : List Call) :
    ∀ s : State, (∀ c ∈ tr, c.target ≠ none) → Owned s (tr.filterMap Call.enqueued) →
      ∃ rs t, run w s tr = some (rs, t) := by
  induction tr with
  | nil => exact fun s _ _ => ⟨[], s, rfl⟩
  | cons c tr ih =>
    intro s honly ho
    have honly2 : ∀ c ∈ tr, c.target ≠ none := fun c hc => honly c (List.mem_cons_of_mem _ hc)
    cases c with
    | new_message alloc => exact absurd rfl (honly _ (List.mem_cons_self _ _))
    | delete_message msg => exact absurd rfl (honly _ (List.mem_cons_self _ _))
    | send e p thr =>
      rcases send_cases e p thr s with ⟨hs, henq⟩ | ⟨he, a, rfl, rfl, henq, hs⟩
      · rw [List.filterMap_cons_none henq] at ho
        obtain ⟨rs, t, hrun⟩ := ih s honly2 ho
        exact ⟨_, t, run_cons_of_step w _ tr s s t (Ret.status (-1)) rs
          (by simp only [step, hs]) hrun⟩
      · rw [List.filterMap_cons_some henq] at ho
        obtain ⟨rs, t, hrun⟩ := ih _ honly2 (owned_send s ⟨e, he⟩ a _ ho)
        exact ⟨_, t, run_cons_of_step w _ tr s _ t (Ret.status 0) rs
          (by simp only [step, hs]) hrun⟩
    | recv e o =>
      have henq : (Call.recv e o).enqueued = none := rfl
      rw [List.filterMap_cons_none henq] at ho
      rcases recv_cases w e o s ho.queued_live with
        hr | ⟨he, o1, b, rest, m, rfl, hqe, hb, hr⟩
      · obtain ⟨rs, t, hrun⟩ := ih s honly2 ho
        exact ⟨_, t, run_cons_of_step w _ tr s s t (Ret.received (-1) o) rs
          (by simp only [step, hr, Option.map_some']) hrun⟩
      · obtain ⟨rs, t, hrun⟩ := ih _ honly2 (owned_recv s ⟨e, he⟩ b rest
          ((s.created_message_counter + 2 ^ w - 1) % 2 ^ w) _ ho hqe)
        exact ⟨_, t, run_cons_of_step w _ tr s _ t (Ret.received 0 (some m)) rs
          (by simp only [step, hr, Option.map_some']) hrun⟩

theorem run_prefix_defined (w : Nat) (s t : State) (tr pre : List Call) (rs : List Ret)
    (hrun : run w s tr = some (rs, t)) (hpre : pre <+: tr) :
    ∃ rs1 t1, run w s pre = some (rs1, t1) := by
  obtain ⟨suf, rfl⟩ := hpre
  rw [run_append] at hrun
  cases h : run w s pre with
  | none => simp [h] at hrun
  | some p => exact ⟨p.1, p.2, rfl⟩

theorem threeAllocated_owned : Owned State.threeAllocated [0, 1, 2] := by
  refine ⟨fun e p hp => ?_, fun e => List.nodup_nil, fun e1 e2 _ p hp => ?_, by decide,
    fun a ha => ?_, fun a _ e h => ?_⟩
  · exact absurd hp (List.not_mem_nil p)
  · exact absurd hp (List.not_mem_nil p)
  · have h3 : a < 3 := by
      simp only [List.mem_cons, List.mem_singleton, List.not_mem_nil, or_false] at ha
      omega
    simp [State.threeAllocated, h3]
  · exact absurd h (List.not_mem_nil _)

/-- C11: start in a state with all queues empty and execute any finite sequence of `send` and
`recv` calls, on any identifiers in any interleaving. After every prefix of the sequence that
executes, and for every destination `d`, the contents returned by the successful `recv(d)`
calls are a prefix of the contents of the handles passed to the successful `send(d)` calls, in
the same order, and the queue of `d` is exactly the remaining suffix of those handles: nothing
is lost, duplicated or reordered. When the buffers are owned as the spec requires, every
prefix of the sequence does execute. -/
theorem queue_ordering_invariant (w : Nat) (s : State) (tr : List Call)
    (hempty : ∀ e, s.thread_queues e = [])
    (honly : ∀ c ∈ tr, c.target ≠ none) :
    (∀ pre rs t, pre <+: tr → run w s pre = some (rs, t) → ∀ d : Fin MAX_SIZE,
      receivedFrom d.val pre rs <+: (sentTo d.val pre rs).map s.deref ∧
      t.thread_queues d = (sentTo d.val pre rs).drop (receivedFrom d.val pre rs).length) ∧
    (Owned s (tr.filterMap Call.enqueued) →
      ∀ pre, pre <+: tr → ∃ rs t, run w s pre = some (rs, t)) := by
  refine ⟨fun pre rs t hpre hrun d => ?_, fun hown pre hpre => ?_⟩
  · have honly2 : ∀ c ∈ pre, c.target ≠ none := fun c hc => honly c (hpre.subset hc)
    obtain ⟨h1, h2⟩ := fifo_of_defined w s.heap pre s t rs honly2 (fun _ _ h => h) hrun d
    rw [hempty d, List.nil_append] at h1 h2
    refine ⟨?_, h2⟩
    rw [List.prefix_iff_eq_take, ← List.map_take]
    exact h1
  · obtain ⟨rs, t, hrun⟩ := run_defined_of_owned w tr s honly hown
    exact run_prefix_defined w s t tr pre rs hrun hpre

theorem queue_ordering_invariant_witness :
    (∀ e, State.threeAllocated.thread_queues e = []) ∧
    (∀ c ∈ fifoCalls, c.target ≠ none) ∧
    ∃ rs t, run 64 State.threeAllocated fifoCalls = some (rs, t) ∧
      ∀ d : Fin MAX_SIZE,
        receivedFrom d.val fifoCalls rs <+:
          (sentTo d.val fifoCalls rs).map State.threeAllocated.deref ∧
        t.thread_queues d =
          (sentTo d.val fifoCalls rs).drop (receivedFrom d.val fifoCalls rs).length :=
  have honly : ∀ c ∈ fifoCalls, c.target ≠ none := by
    simp [fifoCalls, Call.target]
  have h := queue_ordering_invariant 64 State.threeAllocated fifoCalls (fun _ => rfl) honly
  have hrun := h.2 threeAllocated_owned fifoCalls (List.prefix_refl _)
  ⟨fun _ => rfl, honly, hrun.imp fun rs hrs => hrs.imp fun t ht =>
    ⟨ht, h.1 fifoCalls rs t (List.prefix_refl _) ht⟩⟩

/-! ## Queues and the pool cap -/

theorem queued_update (s : State) (d : Fin MAX_SIZE) (v : List Ptr)
    (h : Nat → Option message_t) (c : Nat) :
    State.queued
        { heap := h, thread_queues := Function.update s.thread_queues d v,
          created_message_counter := c } + (s.thread_queues d).length =
      s.queued + v.length := by
  have hfun : (fun e : Fin MAX_SIZE => (Function.update s.thread_queues d v e).length) =
      Function.update (fun e => (s.thread_queues e).length) d v.length := by
    funext e
    by_cases he : e = d
    · subst he
      simp
    · simp [Function.update_noteq he]
  show (Finset.univ.sum fun e : Fin MAX_SIZE =>
      (Function.update s.thread_queues d v e).length) + _ = State.queued s + _
  rw [hfun, Finset.sum_update_of_mem (Finset.mem_univ d), State.queued,
    ← Finset.add_sum_erase Finset.univ (fun e => (s.thread_queues e).length)
      (Finset.mem_univ d), Finset.sdiff_singleton_eq_erase]
  omega

theorem queue_length_le_queued (s : State) (d : Fin MAX_SIZE) :
    (s.thread_queues d).length ≤ s.queued :=
  Finset.single_le_sum (f := fun e : Fin MAX_SIZE => (s.thread_queues e).length)
    (fun _ _ => Nat.zero_le _) (Finset.mem_univ d)

theorem owned_perm (s : State) (l1 l2 : List Nat) (hp : l1.Perm l2) (ho : Owned s l1) :
    Owned s l2 :=
  ⟨ho.queued_live, ho.queued_once, ho.queued_apart, hp.nodup_iff.mp ho.pending_once,
    fun a ha => ho.pending_live a (hp.mem_iff.mpr ha),
    fun a ha => ho.pending_free a (hp.mem_iff.mpr ha)⟩

theorem owned_new (s : State) (a c : Nat) (m : message_t) (held : List Nat)
    (ho : Owned s held) (ha : s.heap a = none) :
    Owned { heap := Function.update s.heap a (some m), thread_queues := s.thread_queues,
            created_message_counter := c } (a :: held) := by
  refine ⟨fun e p hp => ?_, ho.queued_once, ho.queued_apart, ?_, fun b hb => ?_,
    fun b hb e hq => ?_⟩
  · obtain ⟨b, rfl, hb⟩ := ho.queued_live e p hp
    have hba : b ≠ a := fun h => hb (h ▸ ha)
    exact ⟨b, rfl, by simpa only [Function.update_noteq hba] using hb⟩
  · exact List.nodup_cons.mpr ⟨fun h => ho.pending_live a h ha, ho.pending_once⟩
  · by_cases hba : b = a
    · subst hba
      simp
    · rcases List.mem_cons.mp hb with h | h
      · exact absurd h hba
      · simpa only [Function.update_noteq hba] using ho.pending_live b h
  · rcases List.mem_cons.mp hb with rfl | h
    · obtain ⟨b1, hb1, hlive⟩ := ho.queued_live e _ hq
      injection hb1 with hb1
      subst hb1
      exact hlive ha
    · exact ho.pending_free b h e hq

theorem owned_delete (s : State) (a c : Nat) (held : List Nat) (ho : Owned s held)
    (ha : a ∈ held) :
    Owned { heap := Function.update s.heap a none, thread_queues := s.thread_queues,
            created_message_counter := c } (held.erase a) := by
  refine ⟨fun e p hp => ?_, ho.queued_once, ho.queued_apart, ho.pending_once.erase a,
    fun b hb => ?_, fun b hb e => ho.pending_free b (List.mem_of_mem_erase hb) e⟩
  · obtain ⟨b, rfl, hb⟩ := ho.queued_live e p hp
    have hba : b ≠ a := by
      rintro rfl
      exact ho.pending_free b ha e hp
    exact ⟨b, rfl, by simpa only [Function.update_noteq hba] using hb⟩
  · obtain ⟨hba, hmem⟩ := (List.Nodup.mem_erase_iff ho.pending_once).mp hb
    simpa only [Function.update_noteq hba] using ho.pending_live b hmem

theorem step_keeps_discipline (w : Nat) (hw : MAX_MSGS < 2 ^ w) (s : State) (held : List Nat)
    (c : Call) (ho : Owned s held)
    (hcount : s.queued + held.length = s.created_message_counter)
    (hcap : s.created_message_counter ≤ MAX_MSGS)
    (hfresh : c.allocatesFresh s) (hsend : c.sendsHeld held) (hrel : c.releasesHeld held) :
    ∃ r s1, step w s c = some (r, s1) ∧ Owned s1 (heldAfter held c r) ∧
      s1.queued + (heldAfter held c r).length = s1.created_message_counter ∧
      s1.created_message_counter ≤ MAX_MSGS := by
  cases c with
  | new_message alloc =>
    by_cases hlt : s.created_message_counter < MAX_MSGS
    · cases alloc with
      | none =>
        refine ⟨Ret.handle none, s, ?_, ho, hcount, hcap⟩
        simp [step, new_message, hlt]
      | some a =>
        have ha : s.heap a = none := hfresh hlt
        have hmod : (s.created_message_counter + 1) % 2 ^ w = s.created_message_counter + 1 :=
          Nat.mod_eq_of_lt (by omega)
        refine ⟨Ret.handle (some a),
          { heap := Function.update s.heap a (some message_t.zeroed)
            thread_queues := s.thread_queues
            created_message_counter := s.created_message_counter + 1 }, ?_,
          owned_new s a _ message_t.zeroed held ho ha, ?_, ?_⟩
        · simp [step, new_message, hlt, hmod]
        · show s.queued + (held.length + 1) = s.created_message_counter + 1
          omega
        · show s.created_message_counter + 1 ≤ MAX_MSGS
          omega
    · refine ⟨Ret.handle none, s, ?_, ho, hcount, hcap⟩
      simp [step, new_message, hlt]
  | delete_message msg =>
    obtain ⟨a, rfl, ha⟩ := hrel
    have hlen : 0 < held.length := List.length_pos_of_mem ha
    have hpos : 0 < s.created_message_counter := by omega
    refine ⟨Ret.done, delete_message w (some a) s, rfl, owned_delete s a _ held ho ha, ?_,
      delete_message_counter_le w hw _ s hcap hpos⟩
    show s.queued + (held.erase a).length = (s.created_message_counter + 2 ^ w - 1) % 2 ^ w
    rw [size_t_decrement_pos w _ hpos (by omega), List.length_erase_of_mem ha]
    omega
  | send e p thr =>
    rcases send_cases e p thr s with ⟨hs, -⟩ | ⟨he, a, rfl, rfl, -, hs⟩
    · have hh : heldAfter held (Call.send e p thr) (Ret.status (-1)) = held := by
        cases p <;> simp [heldAfter]
      refine ⟨Ret.status (-1), s, by simp only [step, hs], ?_, ?_, hcap⟩
      · rw [hh]; exact ho
      · rw [hh]; exact hcount
    · have ha : a ∈ held := hsend
      have hh : heldAfter held (Call.send e (some a) false) (Ret.status 0) = held.erase a := by
        simp [heldAfter]
      have hlen : 0 < held.length := List.length_pos_of_mem ha
      have hq := queued_update s ⟨e, he⟩ (s.thread_queues ⟨e, he⟩ ++ [some a]) s.heap
        s.created_message_counter
      rw [List.length_append, List.length_singleton] at hq
      refine ⟨Ret.status 0,
        { heap := s.heap
          thread_queues :=
            Function.update s.thread_queues ⟨e, he⟩ (s.thread_queues ⟨e, he⟩ ++ [some a])
          created_message_counter := s.created_message_counter },
        by simp only [step, hs], ?_, ?_, hcap⟩
      · rw [hh]
        exact owned_send s ⟨e, he⟩ a _ (owned_perm s held _ (List.perm_cons_erase ha) ho)
      · rw [hh, List.length_erase_of_mem ha]
        show State.queued _ + (held.length - 1) = s.created_message_counter
        omega
  | recv e o =>
    rcases recv_cases w e o s ho.queued_live with
      hr | ⟨he, o1, b, rest, m, rfl, hqe, hb, hr⟩
    · exact ⟨Ret.received (-1) o, s, by simp only [step, hr, Option.map_some'], ho, hcount,
        hcap⟩
    · have hq := queued_update s ⟨e, he⟩ rest (Function.update s.heap b none)
        ((s.created_message_counter + 2 ^ w - 1) % 2 ^ w)
      rw [hqe, List.length_cons] at hq
      have hpos : 0 < s.created_message_counter := by omega
      have hdec := size_t_decrement_pos w _ hpos (by omega)
      refine ⟨Ret.received 0 (some m),
        { heap := Function.update s.heap b none
          thread_queues := Function.update s.thread_queues ⟨e, he⟩ rest
          created_message_counter := (s.created_message_counter + 2 ^ w - 1) % 2 ^ w },
        by simp only [step, hr, Option.map_some'],
        owned_recv s ⟨e, he⟩ b rest _ held ho hqe, ?_, ?_⟩
      · show State.queued _ + held.length = (s.created_message_counter + 2 ^ w - 1) % 2 ^ w
        generalize (s.created_message_counter + 2 ^ w - 1) % 2 ^ w = x at hq hdec ⊢
        omega
      · show (s.created_message_counter + 2 ^ w - 1) % 2 ^ w ≤ MAX_MSGS
        rw [hdec]
        omega

theorem disciplined_prefixes (w : Nat) (hw : MAX_MSGS < 2 ^ w) (tr : List Call) :
    ∀ (s : State) (held : List Nat), Owned s held →
      s.queued + held.length = s.created_message_counter →
      s.created_message_counter ≤ MAX_MSGS →
      alongRun w (fun s held c => c.allocatesFresh s ∧ c.sendsHeld held ∧ c.releasesHeld held)
        s held tr →
      ∀ pre, pre <+: tr → ∃ rs t, run w s pre = some (rs, t) ∧
        t.queued ≤ t.created_message_counter ∧
        ∀ d, (t.thread_queues d).length ≤ MAX_MSGS := by
  have hbase : ∀ (s : State) (held : List Nat),
      s.queued + held.length = s.created_message_counter →
      s.created_message_counter ≤ MAX_MSGS →
      ∃ rs t, run w s [] = some (rs, t) ∧ t.queued ≤ t.created_message_counter ∧
        ∀ d, (t.thread_queues d).length ≤ MAX_MSGS := by
    intro s held hcount hcap
    refine ⟨[], s, rfl, by omega, fun d => ?_⟩
    have := queue_length_le_queued s d
    omega
  induction tr with
  | nil =>
    intro s held _ hcount hcap _ pre hpre
    rw [List.prefix_nil.mp hpre]
    exact hbase s held hcount hcap
  | cons c tr ih =>
    intro s held ho hcount hcap hdisc pre hpre
    rcases List.prefix_cons_iff.mp hpre with rfl | ⟨pre1, rfl, hpre1⟩
    · exact hbase s held hcount hcap
    · obtain ⟨⟨hfresh, hsend, hrel⟩, hnext⟩ := hdisc
      obtain ⟨r, s1, hstep, ho1, hcount1, hcap1⟩ :=
        step_keeps_discipline w hw s held c ho hcount hcap hfresh hsend hrel
      obtain ⟨rs, t, hrun, h1, h2⟩ :=
        ih s1 _ ho1 hcount1 hcap1 (hnext r s1 hstep) pre1 hpre1
      exact ⟨r :: rs, t, run_cons_of_step w c pre1 s s1 t r rs hstep hrun, h1, h2⟩

theorem initial_owned : Owned State.initial [] :=
  ⟨fun _ p hp => absurd hp (List.not_mem_nil p), fun _ => List.nodup_nil,
    fun _ _ _ p hp => absurd hp (List.not_mem_nil p), List.nodup_nil,
    fun a ha => absurd ha (List.not_mem_nil a), fun a ha => absurd ha (List.not_mem_nil a)⟩

theorem initial_queued : State.initial.queued = 0 := by
  simp [State.queued, State.initial]

/-- C13, the claim as stated fails: in the trace `m = new_message(); send(0, m);
delete_message(nullptr)` from the initial state the only handle passed to `send` is the one
`new_message` has just returned, never sent or released before, and the allocator returned
unused storage; `delete nullptr` does nothing and the counter is decremented all the same, so
the trace ends with one message queued and a counter of `0`. -/
theorem queues_within_cap_counterexample :
    alongRun 64 (fun s held c => c.allocatesFresh s ∧ c.sendsHeld held) State.initial []
      releaseNullCalls ∧
    ∃ rs t, run 64 State.initial releaseNullCalls = some (rs, t) ∧
      t.created_message_counter = 0 ∧ (t.thread_queues ⟨0, by decide⟩).length = 1 ∧
      ¬ t.queued ≤ t.created_message_counter := by
  refine ⟨?_, _, _, rfl, by decide, by decide, ?_⟩
  · simp [alongRun, releaseNullCalls, Call.allocatesFresh, Call.sendsHeld, step, new_message,
      send, heldAfter, State.initial, MAX_MSGS, MAX_SIZE]
  · intro hle
    have h1 := queue_length_le_queued
      (delete_message 64 none (send 0 (some 0) false (new_message 64 (some 0) State.initial).2).2)
      ⟨0, by decide⟩
    have h2 : ((delete_message 64 none
        (send 0 (some 0) false (new_message 64 (some 0) State.initial).2).2).thread_queues
          ⟨0, by decide⟩).length = 1 := by decide
    have h3 : (delete_message 64 none
        (send 0 (some 0) false (new_message 64 (some 0) State.initial).2).2).created_message_counter
          = 0 := by decide
    have hle2 : State.queued (delete_message 64 none
        (send 0 (some 0) false (new_message 64 (some 0) State.initial).2).2) ≤
        (delete_message 64 none
          (send 0 (some 0) false (new_message 64 (some 0) State.initial).2).2).created_message_counter :=
      hle
    omega

/-- C13, amended: on a platform whose `size_t` holds `MAX_MSGS`, in every state reached from
the initial state by `new_message`, `delete_message`, `send` and `recv` calls in which the
allocator returns unused storage, every non-null handle passed to `send` and every handle
passed to `delete_message` was returned by `new_message` and has not been sent or released
before, every call returns, the total number of messages queued over all destinations is at
most the counter, and no queue holds more than `MAX_MSGS` messages. -/
theorem queues_within_pool_cap (w : Nat) (hw : MAX_MSGS < 2 ^ w) (tr : List Call)
    (hdisc : alongRun w
      (fun s held c => c.allocatesFresh s ∧ c.sendsHeld held ∧ c.releasesHeld held)
      State.initial [] tr) :
    ∀ pre, pre <+: tr → ∃ rs t, run w State.initial pre = some (rs, t) ∧
      t.queued ≤ t.created_message_counter ∧
      ∀ d, (t.thread_queues d).length ≤ MAX_MSGS :=
  disciplined_prefixes w hw tr State.initial [] initial_owned
    (by rw [initial_queued]; rfl) (Nat.zero_le _) hdisc

theorem queues_within_pool_cap_witness :
    MAX_MSGS < 2 ^ 64 ∧
    alongRun 64 (fun s held c => c.allocatesFresh s ∧ c.sendsHeld held ∧ c.releasesHeld held)
      State.initial [] twoRoundCalls ∧
    ∃ rs t, run 64 State.initial twoRoundCalls = some (rs, t) ∧
      t.queued ≤ t.created_message_counter ∧
      ∀ d, (t.thread_queues d).length ≤ MAX_MSGS :=
  have hdisc : alongRun 64
      (fun s held c => c.allocatesFresh s ∧ c.sendsHeld held ∧ c.releasesHeld held)
      State.initial [] twoRoundCalls := by
    simp [alongRun, twoRoundCalls, Call.allocatesFresh, Call.sendsHeld, Call.releasesHeld, step,
      new_message, send, recv, delete_message, heldAfter, State.initial, MAX_MSGS, MAX_SIZE]
  ⟨by decide, hdisc,
    queues_within_pool_cap 64 (by decide) twoRoundCalls hdisc _ (List.prefix_refl _)⟩

/-! ## Allocate, send, receive -/

theorem step_counter_balance (w : Nat) (s s1 : State) (c : Call) (r : Ret)
    (hc : c.isRelease = false) (hstep : step w s c = some (r, s1)) :
    (s1.created_message_counter + (if r.isReception then 1 else 0)) % 2 ^ w =
        (s.created_message_counter + (if r.isAllocation then 1 else 0)) % 2 ^ w ∧
      (s.created_message_counter < 2 ^ w → s1.created_message_counter < 2 ^ w) := by
  have hpos : 0 < 2 ^ w := Nat.pow_pos (by decide)
  cases c with
  | new_message alloc =>
    simp only [step, Option.some.injEq, Prod.mk.injEq] at hstep
    obtain ⟨rfl, rfl⟩ := hstep
    by_cases hlt : s.created_message_counter < MAX_MSGS
    · cases alloc with
      | none => simp [new_message, hlt, Ret.isReception, Ret.isAllocation]
      | some a =>
        simp only [new_message, hlt, if_true, Ret.isReception, Ret.isAllocation, Nat.add_zero,
          Nat.mod_mod, Bool.false_eq_true, if_false, true_and]
        exact fun _ => Nat.mod_lt _ hpos
    · simp [new_message, hlt, Ret.isReception, Ret.isAllocation]
  | delete_message msg => simp [Call.isRelease] at hc
  | send e p thr =>
    simp only [step, Option.some.injEq, Prod.mk.injEq] at hstep
    obtain ⟨rfl, rfl⟩ := hstep
    rcases send_cases e p thr s with ⟨hs, -⟩ | ⟨he, a, rfl, rfl, -, hs⟩ <;>
      simp [hs, Ret.isReception, Ret.isAllocation]
  | recv e o =>
    simp only [step, Option.map_eq_some'] at hstep
    obtain ⟨x, hx, hr⟩ := hstep
    rw [Prod.mk.injEq] at hr
    obtain ⟨rfl, rfl⟩ := hr
    rcases recv_some_cases w e o s x hx with rfl | ⟨he, o1, b, rest, m, rfl, hq, hb, rfl⟩
    · simp [Ret.isReception, Ret.isAllocation]
    · simp only [Ret.isReception, Ret.isAllocation, decide_True, if_true, Bool.false_eq_true,
        if_false, Nat.add_zero]
      exact ⟨size_t_decrement w _, fun _ => Nat.mod_lt _ hpos⟩

theorem counter_balance (w : Nat) (tr : List Call) :
    ∀ (s t : State) (rs : List Ret), (∀ c ∈ tr, c.isRelease = false) →
      run w s tr = some (rs, t) →
      (t.created_message_counter + rs.countP Ret.isReception) % 2 ^ w =
          (s.created_message_counter + rs.countP Ret.isAllocation) % 2 ^ w ∧
        (s.created_message_counter < 2 ^ w → t.created_message_counter < 2 ^ w) := by
  induction tr with
  | nil =>
    intro s t rs _ hrun
    rw [run_nil, Option.some.injEq, Prod.mk.injEq] at hrun
    obtain ⟨rfl, rfl⟩ := hrun
    simp
  | cons c tr ih =>
    intro s t rs hrel hrun
    obtain ⟨r, s1, rs1, hstep, hrun1, rfl⟩ := run_cons_some w c tr s t rs hrun
    obtain ⟨h1, h2⟩ := step_counter_balance w s s1 c r (hrel c (List.mem_cons_self _ _)) hstep
    obtain ⟨h3, h4⟩ := ih s1 t rs1 (fun x hx => hrel x (List.mem_cons_of_mem _ hx)) hrun1
    refine ⟨?_, fun h => h4 (h2 h)⟩
    rw [List.countP_cons, List.countP_cons]
    have e1 : (t.created_message_counter + rs1.countP Ret.isReception +
        (if r.isReception then 1 else 0)) % 2 ^ w =
        (s1.created_message_counter + rs1.countP Ret.isAllocation +
          (if r.isReception then 1 else 0)) % 2 ^ w :=
      Nat.ModEq.add_right _ h3
    have e2 : (s1.created_message_counter + (if r.isReception then 1 else 0) +
        rs1.countP Ret.isAllocation) % 2 ^ w =
        (s.created_message_counter + (if r.isAllocation then 1 else 0) +
          rs1.countP Ret.isAllocation) % 2 ^ w :=
      Nat.ModEq.add_right _ h1
    have e3 : t.created_message_counter +
        (rs1.countP Ret.isReception + if r.isReception = true then 1 else 0) =
        t.created_message_counter + rs1.countP Ret.isReception +
          (if r.isReception then 1 else 0) := by omega
    have e4 : s1.created_message_counter + rs1.countP Ret.isAllocation +
        (if r.isReception then 1 else 0) =
        s1.created_message_counter + (if r.isReception then 1 else 0) +
          rs1.countP Ret.isAllocation := by omega
    have e5 : s.created_message_counter +
        (rs1.countP Ret.isAllocation + if r.isAllocation = true then 1 else 0) =
        s.created_message_counter + (if r.isAllocation then 1 else 0) +
          rs1.countP Ret.isAllocation := by omega
    rw [e3, e1, e4, e2, e5]

theorem run_allocSends (w : Nat) (hw : MAX_MSGS < 2 ^ w) (d : Fin MAX_SIZE)
    (addrs : List Nat) :
    ∀ (s : State) (l : List Nat), s.thread_queues d = l.map some → (l ++ addrs).Nodup →
      (∀ a, a ∈ l → s.heap a = some message_t.zeroed) →
      s.created_message_counter + addrs.length ≤ MAX_MSGS →
      ∃ t, run w s (allocSends d.val addrs) =
          some (addrs.flatMap (fun a => [Ret.handle (some a), Ret.status 0]), t) ∧
        t.thread_queues d = (l ++ addrs).map some ∧
        (∀ a, a ∈ l ++ addrs → t.heap a = some message_t.zeroed) ∧
        t.created_message_counter = s.created_message_counter + addrs.length ∧
        ∀ e, e ≠ d → t.thread_queues e = s.thread_queues e := by
  induction addrs with
  | nil =>
    intro s l hq _ hz _
    exact ⟨s, rfl, by simpa using hq, by simpa using hz, rfl, fun _ _ => rfl⟩
  | cons a rest ih =>
    intro s l hq hnd hz hroom
    have hlen : (a :: rest).length = rest.length + 1 := rfl
    have hlt : s.created_message_counter < MAX_MSGS := by omega
    obtain ⟨h1, h2, h3, h4, h5⟩ := new_message_room w hw s a hlt
    have hnd2 : ((l ++ [a]) ++ rest).Nodup := by simpa using hnd
    have hal : a ∉ l := by
      intro h
      have := (List.nodup_append.mp hnd).2.2 h (List.mem_cons_self a rest)
      exact this
    obtain ⟨t, hrun, ht1, ht2, ht3, ht4⟩ := ih
      { (new_message w (some a) s).2 with
        thread_queues := Function.update (new_message w (some a) s).2.thread_queues d
          ((new_message w (some a) s).2.thread_queues d ++ [some a]) }
      (l ++ [a]) (by simp [h4, hq]) hnd2
      (fun x hx => by
        rcases List.mem_append.mp hx with hx | hx
        · have hxa : x ≠ a := fun h => hal (h ▸ hx)
          show (new_message w (some a) s).2.heap x = _
          rw [h5 x hxa]
          exact hz x hx
        · rw [List.mem_singleton] at hx
          subst hx
          exact h2)
      (by show (new_message w (some a) s).2.created_message_counter + rest.length ≤ MAX_MSGS
          rw [h3]; omega)
    refine ⟨t, ?_, by simpa using ht1, fun x hx => ht2 x (by simpa using hx), ?_, fun e he => ?_⟩
    · show run w s (Call.new_message (some a) :: Call.send d.val (some a) false ::
        allocSends d.val rest) = _
      refine run_cons_of_step w _ _ s (new_message w (some a) s).2 t _ _ ?_
        (run_cons_of_step w _ _ _ _ t _ _ ?_ hrun)
      · simp only [step, h1]
      · simp only [step, send_valid]
    · rw [ht3]
      show (new_message w (some a) s).2.created_message_counter + rest.length = _
      rw [h3]
      omega
    · rw [ht4 e he]
      show Function.update (new_message w (some a) s).2.thread_queues d _ e = _
      rw [Function.update_noteq he, h4]

theorem run_recvs (w : Nat) (d : Fin MAX_SIZE) (outs : List message_t) :
    ∀ (s : State) (l : List Nat), s.thread_queues d = l.map some → l.Nodup →
      (∀ a, a ∈ l → s.heap a = some message_t.zeroed) →
      outs.length ≤ l.length → outs.length ≤ s.created_message_counter →
      s.created_message_counter < 2 ^ w →
      ∃ t, run w s (outs.map fun o => Call.recv d.val (some o)) =
          some (outs.map (fun _ => Ret.received 0 (some message_t.zeroed)), t) ∧
        t.created_message_counter + outs.length = s.created_message_counter ∧
        t.thread_queues d = (l.drop outs.length).map some ∧
        ∀ e, e ≠ d → t.thread_queues e = s.thread_queues e := by
  induction outs with
  | nil =>
    intro s l hq _ _ _ _ _
    exact ⟨s, rfl, rfl, by simpa using hq, fun _ _ => rfl⟩
  | cons o outs ih =>
    intro s l hq hnd hz hlen hcnt hlt
    cases l with
    | nil => simp at hlen
    | cons b l =>
      have hqd : s.thread_queues d = some b :: l.map some := by simpa using hq
      have hb : s.heap b = some message_t.zeroed := hz b (List.mem_cons_self _ _)
      have hlen1 : (o :: outs).length = outs.length + 1 := rfl
      have hlen2 : (b :: l).length = l.length + 1 := rfl
      have hdec := size_t_decrement_pos w s.created_message_counter (by omega) hlt
      obtain ⟨t, hrun, ht1, ht2, ht3⟩ := ih
        { heap := Function.update s.heap b none
          thread_queues := Function.update s.thread_queues d (l.map some)
          created_message_counter := (s.created_message_counter + 2 ^ w - 1) % 2 ^ w }
        l (by simp) (List.nodup_cons.mp hnd).2
        (fun x hx => by
          have hxb : x ≠ b := by
            rintro rfl
            exact (List.nodup_cons.mp hnd).1 hx
          show Function.update s.heap b none x = _
          rw [Function.update_noteq hxb]
          exact hz x (List.mem_cons_of_mem _ hx))
        (by omega)
        (by show outs.length ≤ (s.created_message_counter + 2 ^ w - 1) % 2 ^ w
            rw [hdec]; omega)
        (by show (s.created_message_counter + 2 ^ w - 1) % 2 ^ w < 2 ^ w
            rw [hdec]; omega)
      refine ⟨t, ?_, ?_, by simpa using ht2, fun e he => ?_⟩
      · show run w s (Call.recv d.val (some o) :: outs.map fun o => Call.recv d.val (some o)) = _
        refine run_cons_of_step w _ _ s _ t _ _ ?_ hrun
        simp only [step, recv_valid_front w d o s b (l.map some) message_t.zeroed hqd hb,
          Option.map_some']
      · have ht1b : t.created_message_counter + outs.length =
            (s.created_message_counter + 2 ^ w - 1) % 2 ^ w := ht1
        rw [hdec] at ht1b
        omega
      · rw [ht3 e he]
        show Function.update s.thread_queues d _ e = _
        rw [Function.update_noteq he]

theorem run_alloc_send_recv (w : Nat) (hw : MAX_MSGS < 2 ^ w) (s : State) (d : Fin MAX_SIZE)
    (a : Nat) (o : message_t) (hcnt : s.created_message_counter < MAX_MSGS)
    (hq : s.thread_queues d = []) :
    run w s [Call.new_message (some a), Call.send d.val (some a) false, Call.recv d.val (some o)] =
      some ([Ret.handle (some a), Ret.status 0, Ret.received 0 (some message_t.zeroed)],
        { heap := Function.update s.heap a none
          thread_queues := s.thread_queues
          created_message_counter := s.created_message_counter }) := by
  have hmod : (s.created_message_counter + 1) % 2 ^ w = s.created_message_counter + 1 :=
    Nat.mod_eq_of_lt (by omega)
  have hnew : new_message w (some a) s =
      (some a,
        { heap := Function.update s.heap a (some message_t.zeroed)
          thread_queues := s.thread_queues
          created_message_counter := s.created_message_counter + 1 }) := by
    simp [new_message, hcnt, hmod]
  have hdec : (s.created_message_counter + 1 + 2 ^ w - 1) % 2 ^ w = s.created_message_counter := by
    rw [size_t_decrement_pos w _ (by omega) (by omega)]
    omega
  have hrecv := recv_valid_front w d o
    { heap := Function.update s.heap a (some message_t.zeroed)
      thread_queues := Function.update s.thread_queues d (s.thread_queues d ++ [some a])
      created_message_counter := s.created_message_counter + 1 }
    a [] message_t.zeroed (by simp [hq]) (by simp)
  have hqs : Function.update s.thread_queues d [] = s.thread_queues := by
    rw [← hq, Function.update_eq_self]
  simp only [run_cons, run_nil, step, hnew, send_valid, Option.some_bind, hrecv,
    Option.map_some', Function.update_idem, hdec, hqs]

/-- C15, the claim as stated fails: from the initial state (counter `0 < MAX_MSGS`, queue `0`
empty) the calls `m = new_message(); send(0, m); recv(0, out)` do not succeed at each step
when the push of `send` throws: `send` returns `-1`, `recv` finds the queue empty and returns
`-1`, and the counter ends at `1` instead of its starting value `0`. Nor do they when the
allocation fails: `new_message` returns `nullptr`, and `send` and `recv` return `-1`. -/
theorem no_residue_counterexample :
    State.initial.created_message_counter < MAX_MSGS ∧
    State.initial.thread_queues ⟨0, by decide⟩ = [] ∧
    (∃ t, run 64 State.initial
        [Call.new_message (some 0), Call.send 0 (some 0) true, Call.recv 0 (some msgABC)] =
        some ([Ret.handle (some 0), Ret.status (-1), Ret.received (-1) (some msgABC)], t) ∧
      t.created_message_counter = 1 ∧
      t.created_message_counter ≠ State.initial.created_message_counter) ∧
    run 64 State.initial
        [Call.new_message none, Call.send 0 none false, Call.recv 0 (some msgABC)] =
      some ([Ret.handle none, Ret.status (-1), Ret.received (-1) (some msgABC)],
        State.initial) := by
  refine ⟨by decide, rfl, ⟨_, rfl, by decide, by decide⟩, rfl⟩

/-- C15, amended: on a platform whose `size_t` holds `MAX_MSGS`, for every state with the
counter below `MAX_MSGS` and every valid destination `d` whose queue is empty, when the
allocation in `new_message` does not fail and the push in `send` does not throw: (1) the calls
`m = new_message(); send(d, m); recv(d, out)` succeed at each step, `recv` returns the zeroed
message, and the counter and every queue end as they started; the whole state is the starting
one when the allocator returned unused storage; (2) `n` allocations each sent to `d`, followed
by `n` calls `recv(d, out)`, all succeed and leave the counter and every queue as they
started, when the pool has room for the `n` buffers; (3) in any other order too, and whatever
fails: after any executed sequence of `new_message`, `send` and `recv` calls with as many
successful allocations as successful receives, the counter has its starting value. -/
theorem allocate_send_receive_no_residue (w : Nat) (hw : MAX_MSGS < 2 ^ w) (s : State)
    (d : Fin MAX_SIZE) (hcnt : s.created_message_counter < MAX_MSGS)
    (hq : s.thread_queues d = []) :
    (∀ (a : Nat) (o : message_t), ∃ t,
      run w s [Call.new_message (some a), Call.send d.val (some a) false, Call.recv d.val (some o)] =
        some ([Ret.handle (some a), Ret.status 0, Ret.received 0 (some message_t.zeroed)], t) ∧
      t.created_message_counter = s.created_message_counter ∧
      t.thread_queues = s.thread_queues ∧ (s.heap a = none → t = s)) ∧
    (∀ (addrs : List Nat) (outs : List message_t), addrs.Nodup → outs.length = addrs.length →
      s.created_message_counter + addrs.length ≤ MAX_MSGS → ∃ t,
        run w s (allocSends d.val addrs ++ outs.map fun o => Call.recv d.val (some o)) =
          some (addrs.flatMap (fun a => [Ret.handle (some a), Ret.status 0]) ++
            outs.map (fun _ => Ret.received 0 (some message_t.zeroed)), t) ∧
        t.created_message_counter = s.created_message_counter ∧
        t.thread_queues = s.thread_queues) ∧
    (∀ (tr : List Call) (rs : List Ret) (t : State), (∀ c ∈ tr, c.isRelease = false) →
      run w s tr = some (rs, t) → rs.countP Ret.isAllocation = rs.countP Ret.isReception →
      t.created_message_counter = s.created_message_counter) := by
  refine ⟨fun a o => ⟨_, run_alloc_send_recv w hw s d a o hcnt hq, rfl, rfl, fun ha => ?_⟩,
    fun addrs outs hnd hlen hroom => ?_, fun tr rs t hrel hrun heq => ?_⟩
  · have hheap : Function.update s.heap a none = s.heap := by
      rw [← ha, Function.update_eq_self]
    rw [hheap]
  · obtain ⟨t1, hrun1, hq1, hz1, hc1, hf1⟩ := run_allocSends w hw d addrs s [] (by simp [hq])
      (by simpa using hnd) (fun a ha => absurd ha (List.not_mem_nil a)) hroom
    rw [List.nil_append] at hq1 hz1
    obtain ⟨t2, hrun2, hc2, hq2, hf2⟩ := run_recvs w d outs t1 addrs hq1 hnd hz1
      (by omega) (by omega) (by omega)
    refine ⟨t2, ?_, by omega, ?_⟩
    · rw [run_append, hrun1, Option.some_bind, hrun2, Option.map_some']
    · funext e
      by_cases he : e = d
      · subst he
        rw [hq2, hq, hlen, List.drop_length, List.map_nil]
      · rw [hf2 e he, hf1 e he]
  · obtain ⟨h1, h2⟩ := counter_balance w tr s t rs hrel hrun
    have hs : s.created_message_counter < 2 ^ w := by omega
    rw [heq] at h1
    exact Nat.ModEq.eq_of_lt_of_lt (Nat.ModEq.add_right_cancel' _ h1) (h2 hs) hs

theorem allocate_send_receive_no_residue_witness :
    MAX_MSGS < 2 ^ 64 ∧ State.initial.created_message_counter < MAX_MSGS ∧
    State.initial.thread_queues ⟨0, by decide⟩ = [] ∧
    (∃ t, run 64 State.initial
        [Call.new_message (some 0), Call.send 0 (some 0) false, Call.recv 0 (some msgABC)] =
        some ([Ret.handle (some 0), Ret.status 0, Ret.received 0 (some message_t.zeroed)], t) ∧
      t = State.initial) ∧
    ∃ t, run 64 State.initial twoRoundCalls =
        some ([Ret.handle (some 0), Ret.status 0, Ret.handle (some 1), Ret.status 0,
          Ret.received 0 (some message_t.zeroed), Ret.received 0 (some message_t.zeroed)], t) ∧
      t.created_message_counter = State.initial.created_message_counter :=
  have h := allocate_send_receive_no_residue 64 (by decide) State.initial ⟨0, by decide⟩
    (by decide) rfl
  ⟨by decide, by decide, rfl,
    (h.1 0 msgABC).imp fun _ ht => ⟨ht.1, ht.2.2.2 rfl⟩,
    (h.2.1 [0, 1] [message_t.zeroed, message_t.zeroed] (by decide) rfl (by decide)).imp
      fun _ ht => ⟨ht.1, ht.2.1⟩⟩

end MessageSharing
